import Mathlib

/-!
# ITKPyTorch: the torch-backed image and its pixel helper

A shallow embedding of `itkTorchPixelHelper.h` and `itkTorchImage.h`.

* The tensor library is external.  Its arrays are modelled by `Tensor` (a shape and the
  scalar stored at every position) and its handles by `TensorView` (a base array together
  with the leading coordinates selected so far); the four library calls the code makes
  (`operator[]`, `index_put_`, `item`, `fill_`) are modelled on views.
* Pixel types are the template arguments the two specialisations of `TorchPixelHelper`
  accept: an arithmetic scalar, or a vector type with a `Dimension` and a `ValueType`.
* An exception thrown by the tensor library is the result `none`.
* `Dimension` is a compile-time constant in the range of `int`, so the loop counter
  `int i` of the vector specialisation is a natural number below `Dimension`.
* The members of `TorchImage` that `itkTorchImage.h` declares and `itkTorchImage.hxx`
  defines are modelled from their documentation in the header; each such definition
  says so.
* Sizes and indices are within the range of `int64_t`, as the tensor library requires
  of a shape it allocates.
-/

namespace itk

/-! ## Pixel types and pixel values -/

/-- The pixel types `TorchPixelHelper` is specialised for: `arithmetic` is a type with
`std::is_arithmetic`, `vector Dimension ValueType` is a type with a member `ValueType`
and a static `Dimension` (RGBPixel, RGBAPixel, Vector, CovariantVector, ...). -/
inductive PixelType where
  | arithmetic : PixelType
  | vector (Dimension : Nat) (ValueType : PixelType) : PixelType
deriving DecidableEq

/-- The values of a pixel type over the deep scalar type `α`: a scalar, or `Dimension`
components of the `ValueType`. -/
@[reducible] def PixelValue (α : Type) : PixelType → Type
  | .arithmetic => α
  | .vector n t => { xs : List (PixelValue α t) // xs.length = n }

/-- Equality of pixel values is decidable when equality of the scalars is. -/
def PixelValue.decEq {α : Type} [DecidableEq α] : (ty : PixelType) → DecidableEq (PixelValue α ty)
  | .arithmetic => fun (a b : α) => (inferInstance : Decidable (a = b))
  | .vector n t =>
    have : DecidableEq (PixelValue α t) := PixelValue.decEq t
    fun (a b : { xs : List (PixelValue α t) // xs.length = n }) =>
      (inferInstance : Decidable (a = b))

instance {α : Type} [DecidableEq α] (ty : PixelType) : DecidableEq (PixelValue α ty) :=
  PixelValue.decEq ty

/-! ## The tensor library -/

/-- An n-dimensional array: its shape and the scalar at every position. -/
structure Tensor (α : Type) where
  sizes : List Nat
  data : List Nat → α

/-- A `torch::Tensor` handle obtained from a base array by selecting leading coordinates.
It shares the storage of `base`; `offset` holds the coordinates selected so far. -/
structure TensorView (α : Type) where
  base : Tensor α
  offset : List Nat

/-- The shape of a view: the dimensions of the base that are not yet selected. -/
def TensorView.sizes {α : Type} (v : TensorView α) : List Nat :=
  v.base.sizes.drop v.offset.length

/-- The number of elements of a view. -/
def TensorView.numel {α : Type} (v : TensorView α) : Nat :=
  v.sizes.prod

/-- The library call `Tensor::operator[]( int64_t )`, that is `select( 0, index )`: fails on a
zero-dimensional tensor and on an index outside `[-size, size)`; a negative index counts
from the end. -/
def TensorView.select {α : Type} (v : TensorView α) (index : Int) : Option (TensorView α) :=
  match v.sizes with
  | [] => none
  | size :: _ =>
    if -(size : Int) ≤ index ∧ index < (size : Int) then
      some ⟨v.base, v.offset ++ [(if index < 0 then index + (size : Int) else index).toNat]⟩
    else none

/-- The library call `Tensor::index_put_( {}, value )`: with no index the scalar is broadcast over the whole
view.  The view shares the storage of its base, so the result is the updated base. -/
def TensorView.index_put_ {α : Type} (v : TensorView α) (value : α) : Tensor α :=
  { v.base with data := fun p => if v.offset.isPrefixOf p then value else v.base.data p }

/-- The library call `Tensor::item< T >()`: the single element of a view of exactly one element; fails for
any other number of elements. -/
def TensorView.item {α : Type} (v : TensorView α) : Option α :=
  if v.numel = 1 then some (v.base.data (v.offset ++ List.replicate v.sizes.length 0))
  else none

/-- The library call `Tensor::fill_( value )`: every element becomes `value`. -/
def Tensor.fill_ {α : Type} (t : Tensor α) (value : α) : Tensor α :=
  { t with data := fun _ => value }

/-- The stride of dimension `k` of a contiguous tensor of the given shape, as the library
allocates it: the last dimension has stride 1 and the stride of a dimension is the stride
of the next one times the size (at least 1) of the next one.  A dimension with a smaller
stride varies faster in the underlying buffer. -/
def contiguousStride (sizes : List Nat) (k : Nat) : Nat :=
  ((sizes.drop (k + 1)).map (fun size => max size 1)).prod

/-! ## The class `TorchPixelHelper` -/

/-- The data members of `TorchPixelHelper`: the tensor handle and the torch index. -/
structure TorchPixelHelper (α : Type) where
  m_Tensor : Tensor α
  m_TorchIndex : List Int

namespace TorchPixelHelper

/-- The constant `NumberOfComponents`: 1 for an arithmetic type, `PixelType::Dimension` for a vector. -/
def NumberOfComponents : PixelType → Nat
  | .arithmetic => 1
  | .vector n _ => n

/-- The constant `SizeOf`: `NumberOfComponents` for an arithmetic type,
`NumberOfComponents * NextTorchPixelHelper::SizeOf` for a vector. -/
def SizeOf : PixelType → Nat
  | .arithmetic => NumberOfComponents .arithmetic
  | .vector n t => NumberOfComponents (.vector n t) * SizeOf t

/-- The constant `PixelDimension`: 0 for an arithmetic type,
`1 + NextTorchPixelHelper::PixelDimension` for a vector. -/
def PixelDimension : PixelType → Nat
  | .arithmetic => 0
  | .vector _ t => 1 + PixelDimension t

/-- The function `AppendSizes( size )`: nothing to append for an arithmetic type; a vector pushes back
`PixelType::Dimension` and then lets the next helper append. -/
def AppendSizes : PixelType → List Nat → List Nat
  | .arithmetic, size => size
  | .vector n t, size => AppendSizes t (size ++ [n])

/-- The loop `Tensor = m_Tensor; for( i : m_TorchIndex ) Tensor = Tensor[i];` shared by
both members of the scalar specialisation. -/
def walk {α : Type} (self : TorchPixelHelper α) : Option (TensorView α) :=
  self.m_TorchIndex.foldlM TensorView.select ⟨self.m_Tensor, []⟩

/-- The loop of the vector `operator=` from component `i` on, `values` being
`value[i], value[i+1], ...`: push the component number, assign through a temporary
next-level helper built from `m_Tensor` and a copy of `m_TorchIndex`, pop.  The temporary
shares the tensor storage, so its writes stay; its own index copy is discarded. -/
def assignComponents {α β : Type}
    (assignNext : TorchPixelHelper α → β → Option (TorchPixelHelper α)) :
    Nat → List β → TorchPixelHelper α → Option (TorchPixelHelper α)
  | _, [], self => some self
  | i, x :: values, self =>
    let pushed : List Int := self.m_TorchIndex ++ [(i : Int)]
    match assignNext ⟨self.m_Tensor, pushed⟩ x with
    | none => none
    | some next => assignComponents assignNext (i + 1) values ⟨next.m_Tensor, pushed.dropLast⟩

/-- The member `operator=( const PixelType &value )` of both specialisations; the result is the
helper afterwards (its tensor storage and its torch index). -/
def assign {α : Type} : (ty : PixelType) → TorchPixelHelper α → PixelValue α ty →
    Option (TorchPixelHelper α)
  | .arithmetic, self, value =>
    match walk self with
    | none => none
    | some view => some ⟨view.index_put_ value, self.m_TorchIndex⟩
  | .vector _ t, self, value => assignComponents (assign t) 0 value.val self

/-- The loop of the vector `operator PixelType` for `count` components from component `i`
on: push the component number, convert a temporary next-level helper, pop.  The result is
the `count` components read and the helper afterwards. -/
def convertComponents {α β : Type}
    (convertNext : TorchPixelHelper α → Option (β × TorchPixelHelper α)) :
    (count : Nat) → Nat → TorchPixelHelper α →
      Option ({ xs : List β // xs.length = count } × TorchPixelHelper α)
  | 0, _, self => some (⟨[], rfl⟩, self)
  | count + 1, i, self =>
    let pushed : List Int := self.m_TorchIndex ++ [(i : Int)]
    match convertNext ⟨self.m_Tensor, pushed⟩ with
    | none => none
    | some (x, next) =>
      match convertComponents convertNext count (i + 1) ⟨next.m_Tensor, pushed.dropLast⟩ with
      | none => none
      | some (xs, self') => some (⟨x :: xs.val, by rw [List.length_cons, xs.property]⟩, self')

/-- The member `operator PixelType() const` of both specialisations; the result is the pixel and
the helper afterwards (`m_TorchIndex` is `mutable`). -/
def convert {α : Type} : (ty : PixelType) → TorchPixelHelper α →
    Option (PixelValue α ty × TorchPixelHelper α)
  | .arithmetic, self =>
    match walk self with
    | none => none
    | some view =>
      match view.item with
      | none => none
      | some a => some (a, self)
  | .vector n t, self => convertComponents (convert t) n 0 self

end TorchPixelHelper

/-! ## The class `TorchImage` -/

/-- The enumeration `enum DeviceType { itkCPU, itkCUDA }`. -/
inductive DeviceType where
  | itkCPU
  | itkCUDA
deriving DecidableEq

/-- The data members of `TorchImage` together with the size of the buffered region of
`ImageBase`.  The buffered region is the one `SetRegions( size )` sets: it starts at index
zero and is given by its size, one entry per image dimension. -/
structure TorchImage (α : Type) where
  m_BufferedRegionSize : List Nat
  m_DeviceType : DeviceType
  m_Allocated : Bool
  m_CudaDeviceNumber : Nat
  m_Tensor : Tensor α

namespace TorchImage

/-- The constant `ImageDimension`: the number of entries of an index or a size. -/
def ImageDimension {α : Type} (self : TorchImage α) : Nat :=
  self.m_BufferedRegionSize.length

/-- The constant `TorchDimension = ImageDimension + PixelDimension`. -/
def TorchDimension (ty : PixelType) (ImageDimension : Nat) : Nat :=
  ImageDimension + TorchPixelHelper.PixelDimension ty

/-- Modelled from the spec: `ComputeTorchSize` is defined in itkTorchImage.hxx, which is
missing.  Its documentation in itkTorchImage.h: the index components of the size are in
reverse order, followed by the sizes of the non-scalar pixel type. -/
def ComputeTorchSize {α : Type} (ty : PixelType) (self : TorchImage α) : List Nat :=
  TorchPixelHelper.AppendSizes ty self.m_BufferedRegionSize.reverse

/-- Modelled from the spec: the two-argument `SetDevice` is defined in itkTorchImage.hxx,
which is missing.  `cudaDeviceCount` is the number of CUDA devices of the machine (zero
without CUDA).  itkCPU is always available; itkCUDA is available for an existing device.
On success the selection is recorded and the result is true, otherwise the image is left
as it is and the result is false. -/
def SetDeviceNumber {α : Type} (cudaDeviceCount : Nat) (self : TorchImage α)
    (deviceType : DeviceType) (cudaDeviceNumber : Nat) : Bool × TorchImage α :=
  match deviceType with
  | .itkCPU =>
    (true, { self with m_DeviceType := .itkCPU, m_CudaDeviceNumber := cudaDeviceNumber })
  | .itkCUDA =>
    if cudaDeviceNumber < cudaDeviceCount then
      (true, { self with m_DeviceType := .itkCUDA, m_CudaDeviceNumber := cudaDeviceNumber })
    else (false, self)

/-- Modelled from the spec: the one-argument `SetDevice` is defined in itkTorchImage.hxx,
which is missing.  Its documentation: select itkCUDA (on device #0) or itkCPU. -/
def SetDevice {α : Type} (cudaDeviceCount : Nat) (self : TorchImage α)
    (deviceType : DeviceType) : Bool × TorchImage α :=
  SetDeviceNumber cudaDeviceCount self deviceType 0

/-- Modelled from the spec: `GetDevice` is defined in itkTorchImage.hxx, which is missing.
Its documentation: query the current device type and device number. -/
def GetDevice {α : Type} (self : TorchImage α) : DeviceType × Nat :=
  (self.m_DeviceType, self.m_CudaDeviceNumber)

/-- Modelled from the spec: `Allocate` is defined in itkTorchImage.hxx, which is missing.
It allocates the tensor for the size already set; `contents` is what the tensor library
delivers for the chosen initializer.  Its declaration in itkTorchImage.h returns `void`,
so the result here is the image afterwards and nothing else. -/
def Allocate {α : Type} (ty : PixelType) (self : TorchImage α) (contents : List Nat → α) :
    TorchImage α :=
  { self with m_Allocated := true, m_Tensor := ⟨ComputeTorchSize ty self, contents⟩ }

/-- An image whose tensor has been allocated for its current buffered region. -/
def IsAllocated {α : Type} (ty : PixelType) (self : TorchImage α) : Prop :=
  self.m_Allocated = true ∧ self.m_Tensor.sizes = ComputeTorchSize ty self

instance {α : Type} (ty : PixelType) (self : TorchImage α) : Decidable (IsAllocated ty self) :=
  inferInstanceAs (Decidable (_ ∧ _))

/-- An index inside the buffered region of the given size: one entry per dimension, each
at least zero and below the size. -/
def IsInside : List Nat → List Int → Prop
  | [], [] => True
  | size :: sizes, i :: index => (0 ≤ i ∧ i < (size : Int)) ∧ IsInside sizes index
  | _, _ => False

/-- Whether an index is inside a region is decidable. -/
def IsInside.decide : (sizes : List Nat) → (index : List Int) → Decidable (IsInside sizes index)
  | [], [] => isTrue trivial
  | size :: sizes, i :: index =>
    have : Decidable (IsInside sizes index) := IsInside.decide sizes index
    inferInstanceAs (Decidable ((0 ≤ i ∧ i < (size : Int)) ∧ IsInside sizes index))
  | [], _ :: _ => isFalse (fun h => h)
  | _ :: _, [] => isFalse (fun h => h)

instance (sizes : List Nat) (index : List Int) : Decidable (IsInside sizes index) :=
  IsInside.decide sizes index

/-- Modelled from the spec: `GetPixel` is defined in itkTorchImage.hxx, which is missing.
It returns the helper for the image's tensor at the torch index of the pixel, the image
index in reverse order. -/
def GetPixel {α : Type} (self : TorchImage α) (index : List Int) : TorchPixelHelper α :=
  ⟨self.m_Tensor, index.reverse⟩

/-- The statement `image->GetPixel( index ) = value`: the helper's assignment writes into
the storage the image's tensor shares. -/
def GetPixelAssign {α : Type} (ty : PixelType) (self : TorchImage α) (index : List Int)
    (value : PixelValue α ty) : Option (TorchImage α) :=
  match TorchPixelHelper.assign ty (self.GetPixel index) value with
  | none => none
  | some helper => some { self with m_Tensor := helper.m_Tensor }

/-- The statement `pixelValue = image->GetPixel( index )`. -/
def GetPixelValue {α : Type} (ty : PixelType) (self : TorchImage α) (index : List Int) :
    Option (PixelValue α ty) :=
  match TorchPixelHelper.convert ty (self.GetPixel index) with
  | none => none
  | some r => some r.1

/-- Modelled from the spec: `SetPixel` is defined in itkTorchImage.hxx, which is missing.
It sets the pixel at the index to the value, through the pixel helper. -/
def SetPixel {α : Type} (ty : PixelType) (self : TorchImage α) (index : List Int)
    (value : PixelValue α ty) : Option (TorchImage α) :=
  match TorchPixelHelper.assign ty ⟨self.m_Tensor, index.reverse⟩ value with
  | none => none
  | some helper => some { self with m_Tensor := helper.m_Tensor }

/-- The loop of `FillBufferPart` over one image dimension, for `count` indices from `i`
on: push the index, fill the part, pop. -/
def fillParts {α : Type} (part : Tensor α → List Int → Option (Tensor α)) :
    Nat → Nat → Tensor α → List Int → Option (Tensor α)
  | 0, _, tensor, _ => some tensor
  | count + 1, i, tensor, TorchIndex =>
    match part tensor (TorchIndex ++ [(i : Int)]) with
    | none => none
    | some tensor' => fillParts part count (i + 1) tensor' TorchIndex

/-- Modelled from the spec: `FillBufferPart` is defined in itkTorchImage.hxx, which is
missing.  Its documentation: recursively fill part of the full buffer.  With no image
dimension left the pixel at `TorchIndex` is assigned through the pixel helper; otherwise
every index of the slowest remaining dimension, `BufferSize[CurrentDimensions - 1]`, is
appended in turn. -/
def FillBufferPart {α : Type} (ty : PixelType) (value : PixelValue α ty)
    (BufferSize : List Nat) : (CurrentDimensions : Nat) → Tensor α → List Int →
    Option (Tensor α)
  | 0, tensor, TorchIndex =>
    match TorchPixelHelper.assign ty ⟨tensor, TorchIndex⟩ value with
    | none => none
    | some helper => some helper.m_Tensor
  | d + 1, tensor, TorchIndex =>
    fillParts (FillBufferPart ty value BufferSize d) (BufferSize.getD d 0) 0 tensor TorchIndex

/-- The member `FillBuffer( value )`: the overload for `PixelDimension == 0` calls `fill_`, the
overload for `PixelDimension != 0` calls `FillBufferPart` with `ImageDimension`, the size
of the buffered region and an empty torch index. -/
def FillBuffer {α : Type} : (ty : PixelType) → TorchImage α → PixelValue α ty →
    Option (TorchImage α)
  | .arithmetic, self, value => some { self with m_Tensor := self.m_Tensor.fill_ value }
  | .vector n t, self, value =>
    match FillBufferPart (.vector n t) value self.m_BufferedRegionSize self.ImageDimension
        self.m_Tensor [] with
    | none => none
    | some tensor => some { self with m_Tensor := tensor }

/-- The member `operator[]( const IndexType & index )`, the version that can be an
lvalue: it returns `this->GetPixel( index )`. -/
def operatorBrackets {α : Type} (self : TorchImage α) (index : List Int) :
    TorchPixelHelper α :=
  self.GetPixel index

/-- The member `operator[]( const IndexType & index ) const`: it returns
`this->GetPixel( index )`. -/
def operatorBracketsConst {α : Type} (self : TorchImage α) (index : List Int) :
    TorchPixelHelper α :=
  self.GetPixel index

/-- Modelled from the spec: `Graft` is defined in itkTorchImage.hxx, which is missing.
Its documentation in itkTorchImage.h: the superclass' implementation copies the
information and the region ivars, and the implementation here then copies over the pixel
container.  The image grafted from is passed as a pointer to const: the call changes the
image grafted onto, which is the result here. -/
def Graft {α : Type} (self data : TorchImage α) : TorchImage α :=
  { self with m_BufferedRegionSize := data.m_BufferedRegionSize, m_Tensor := data.m_Tensor }

/-- The member `GetNumberOfComponentsPerPixel()`: it returns
`TorchImagePixelHelper::NumberOfComponents`. -/
def GetNumberOfComponentsPerPixel (ty : PixelType) : Nat :=
  TorchPixelHelper.NumberOfComponents ty

end TorchImage

/-! ## Notions used to state the properties -/

/-- The nesting depth of a pixel type: the number of vector levels around the scalar. -/
def PixelType.depth : PixelType → Nat
  | .arithmetic => 0
  | .vector _ t => t.depth + 1

/-- The `Dimension` of every nesting level, from the outermost to the innermost. -/
def PixelType.dimensions : PixelType → List Nat
  | .arithmetic => []
  | .vector n t => n :: t.dimensions

/-- A torch index within a shape: no longer than the shape, each entry in
`[-size, size)` of its dimension. -/
def IndexInRange : List Nat → List Int → Prop
  | _, [] => True
  | [], _ :: _ => False
  | size :: sizes, i :: index => (-(size : Int) ≤ i ∧ i < (size : Int)) ∧ IndexInRange sizes index

/-- Whether a torch index is within a shape is decidable. -/
def IndexInRange.decide : (sizes : List Nat) → (index : List Int) →
    Decidable (IndexInRange sizes index)
  | _, [] => isTrue (by cases ‹List Nat› <;> trivial)
  | [], _ :: _ => isFalse (fun h => h)
  | size :: sizes, i :: index =>
    have : Decidable (IndexInRange sizes index) := IndexInRange.decide sizes index
    inferInstanceAs (Decidable ((-(size : Int) ≤ i ∧ i < (size : Int)) ∧ IndexInRange sizes index))

instance (sizes : List Nat) (index : List Int) : Decidable (IndexInRange sizes index) :=
  IndexInRange.decide sizes index

/-- The shape admits the helper's index for the pixel type: the torch index followed by
the component numbers of any scalar of the pixel is within the shape and selects exactly
one element. -/
def Admits : PixelType → List Nat → List Int → Prop
  | .arithmetic, sizes, index => IndexInRange sizes index ∧ (sizes.drop index.length).prod = 1
  | .vector n t, sizes, index => ∀ i, i < n → Admits t sizes (index ++ [(i : Int)])

/-- Whether a shape admits an index is decidable. -/
def Admits.decide : (ty : PixelType) → (sizes : List Nat) → (index : List Int) →
    Decidable (Admits ty sizes index)
  | .arithmetic, sizes, index =>
    inferInstanceAs (Decidable (IndexInRange sizes index ∧ (sizes.drop index.length).prod = 1))
  | .vector n t, sizes, index =>
    have : ∀ i, Decidable (Admits t sizes (index ++ [(i : Int)])) :=
      fun i => Admits.decide t sizes (index ++ [(i : Int)])
    inferInstanceAs (Decidable (∀ i, i < n → Admits t sizes (index ++ [(i : Int)])))

instance (ty : PixelType) (sizes : List Nat) (index : List Int) :
    Decidable (Admits ty sizes index) :=
  Admits.decide ty sizes index

/-- The coordinates a torch index selects in a shape: negative entries count from the
end; `none` when the index is not within the shape. -/
def resolve : List Nat → List Int → Option (List Nat)
  | _, [] => some []
  | [], _ :: _ => none
  | size :: sizes, i :: index =>
    if -(size : Int) ≤ i ∧ i < (size : Int) then
      match resolve sizes index with
      | none => none
      | some q => some ((if i < 0 then i + (size : Int) else i).toNat :: q)
    else none

/-- A component path of a pixel type: one component number per nesting level, from the
outermost to the innermost, each below the `Dimension` of its level. -/
def IsComponentPath : PixelType → List Nat → Prop
  | .arithmetic, [] => True
  | .arithmetic, _ :: _ => False
  | .vector _ _, [] => False
  | .vector n t, i :: path => i < n ∧ IsComponentPath t path

/-- Whether a list is a component path of a pixel type is decidable. -/
def IsComponentPath.decide : (ty : PixelType) → (path : List Nat) →
    Decidable (IsComponentPath ty path)
  | .arithmetic, [] => isTrue trivial
  | .arithmetic, _ :: _ => isFalse (fun h => h)
  | .vector _ _, [] => isFalse (fun h => h)
  | .vector n t, i :: path =>
    have : Decidable (IsComponentPath t path) := IsComponentPath.decide t path
    inferInstanceAs (Decidable (i < n ∧ IsComponentPath t path))

instance (ty : PixelType) (path : List Nat) : Decidable (IsComponentPath ty path) :=
  IsComponentPath.decide ty path

/-- The scalar `value[i_1]...[i_k]` of a pixel along a component path; `none` when the
list is not a component path of the pixel type. -/
def PixelValue.component {α : Type} : (ty : PixelType) → PixelValue α ty → List Nat → Option α
  | .arithmetic, value, [] => some value
  | .arithmetic, _, _ :: _ => none
  | .vector _ _, _, [] => none
  | .vector _ t, value, i :: path =>
    match value.val[i]? with
    | none => none
    | some x => PixelValue.component t x path

/-- The scalar of a tensor at a position, `tensor[p_0]...[p_m].item()`: `none` when the
position is not within the shape or does not select a single element. -/
def Tensor.scalarAt {α : Type} (t : Tensor α) (position : List Int) : Option α :=
  match position.foldlM TensorView.select ⟨t, []⟩ with
  | none => none
  | some view => view.item

/-! ## Example values -/

/-- A vector of three vectors of two scalars. -/
def examplePixelType : PixelType := .vector 3 (.vector 2 .arithmetic)

/-- A pixel of `examplePixelType`. -/
def examplePixel : PixelValue Nat examplePixelType :=
  ⟨[⟨[1, 2], rfl⟩, ⟨[3, 4], rfl⟩, ⟨[5, 6], rfl⟩], rfl⟩

/-- A tensor of shape 2 x 3 x 2 holding the number 7 everywhere. -/
def exampleTensor : Tensor Nat := ⟨[2, 3, 2], fun _ => 7⟩

/-- An image of 2 x 3 pixels on the CPU, not yet allocated. -/
def exampleImage : TorchImage Nat := ⟨[2, 3], .itkCPU, false, 0, ⟨[], fun _ => 0⟩⟩

/-- A vector of three vectors of two RGB pixels, the pixel type
`Vector< Vector< RGBPixel< uint8_t >, 2 >, 3 >` of the test. -/
def exampleNestedPixelType : PixelType := .vector 3 (.vector 2 (.vector 3 .arithmetic))

/-! ## Torch indices and the coordinates they select -/

theorem resolve_length : ∀ (sizes : List Nat) (index : List Int) (q : List Nat),
    resolve sizes index = some q → q.length = index.length
  | _, [], q, h => by
    simp only [resolve, Option.some.injEq] at h
    subst h; rfl
  | [], _ :: _, q, h => by simp [resolve] at h
  | size :: sizes, i :: index, q, h => by
    simp only [resolve] at h
    split at h
    · split at h
      · exact absurd h (by simp)
      · rename_i q' hq'
        simp only [Option.some.injEq] at h
        subst h
        simp [resolve_length sizes index q' hq']
    · exact absurd h (by simp)

theorem resolve_isSome_iff : ∀ (sizes : List Nat) (index : List Int),
    (resolve sizes index).isSome = true ↔ IndexInRange sizes index
  | sizes, [] => by cases sizes <;> simp [resolve, IndexInRange]
  | [], _ :: _ => by simp [resolve, IndexInRange]
  | size :: sizes, i :: index => by
    have ih := resolve_isSome_iff sizes index
    simp only [resolve, IndexInRange]
    by_cases hc : -(size : Int) ≤ i ∧ i < (size : Int)
    · rw [if_pos hc]
      cases hr : resolve sizes index with
      | none => simp [hr] at ih; simp [ih]
      | some q => simp [hr] at ih; simp [ih, hc]
    · rw [if_neg hc]
      simp [hc]

/-- Appending a component number to an index appends it to the coordinates. -/
theorem resolve_append_nat : ∀ (sizes : List Nat) (index : List Int) (j : Nat) (q : List Nat),
    resolve sizes (index ++ [(j : Int)]) = some q →
      ∃ q0, resolve sizes index = some q0 ∧ q = q0 ++ [j]
  | [], [], j, q, h => by simp [resolve] at h
  | size :: sizes, [], j, q, h => by
    simp only [List.nil_append, resolve] at h
    split at h
    · have hj : ¬ ((j : Int) < 0) := by omega
      simp only [hj, if_false, Int.toNat_ofNat, Option.some.injEq] at h
      exact ⟨[], by simp [resolve], by simp [← h]⟩
    · exact absurd h (by simp)
  | [], _ :: _, j, q, h => by simp [resolve] at h
  | size :: sizes, i :: index, j, q, h => by
    simp only [List.cons_append, resolve] at h
    split at h
    · rename_i hc
      split at h
      · exact absurd h (by simp)
      · rename_i q' hq'
        obtain ⟨q0, hq0, rfl⟩ := resolve_append_nat sizes index j q' hq'
        simp only [Option.some.injEq] at h
        refine ⟨(if i < 0 then i + (size : Int) else i).toNat :: q0, ?_, ?_⟩
        · simp only [resolve, if_pos hc, hq0]
        · simp [← h]
    · exact absurd h (by simp)

/-- An index extended by a component number is within the shape exactly when the index
is and the component number is below the size of the next dimension. -/
theorem resolve_append_of : ∀ (sizes : List Nat) (index : List Int) (j : Nat) (q0 : List Nat),
    resolve sizes index = some q0 → IndexInRange sizes (index ++ [(j : Int)]) →
      resolve sizes (index ++ [(j : Int)]) = some (q0 ++ [j]) := by
  intro sizes index j q0 h0 hr
  have hs := (resolve_isSome_iff sizes (index ++ [(j : Int)])).2 hr
  obtain ⟨q, hq⟩ := Option.isSome_iff_exists.1 hs
  obtain ⟨q0', hq0', rfl⟩ := resolve_append_nat sizes index j q hq
  rw [h0] at hq0'
  simp only [Option.some.injEq] at hq0'
  subst hq0'
  exact hq

theorem foldlM_select {α : Type} (t : Tensor α) : ∀ (index : List Int) (off : List Nat),
    index.foldlM TensorView.select (⟨t, off⟩ : TensorView α) =
      (resolve (t.sizes.drop off.length) index).map (fun q => ⟨t, off ++ q⟩)
  | [], off => by simp [resolve]
  | i :: index, off => by
    rw [List.foldlM_cons]
    cases hs : t.sizes.drop off.length with
    | nil => simp [TensorView.select, TensorView.sizes, hs, resolve]
    | cons size rest =>
      have hrest : t.sizes.drop (off ++ [(if i < 0 then i + (size : Int) else i).toNat]).length
          = rest := by
        rw [List.length_append, List.length_singleton, ← List.drop_drop, hs]
        rfl
      simp only [TensorView.select, TensorView.sizes, hs, resolve]
      by_cases hc : -(size : Int) ≤ i ∧ i < (size : Int)
      · rw [if_pos hc, if_pos hc]
        show List.foldlM TensorView.select
          (⟨t, off ++ [(if i < 0 then i + (size : Int) else i).toNat]⟩ : TensorView α) index = _
        rw [foldlM_select t index, hrest]
        cases resolve rest index <;> simp [List.append_assoc]
      · rw [if_neg hc, if_neg hc]
        rfl

theorem TorchPixelHelper.walk_eq {α : Type} (t : Tensor α) (index : List Int) :
    TorchPixelHelper.walk ⟨t, index⟩ = (resolve t.sizes index).map (fun q => ⟨t, q⟩) := by
  have h := foldlM_select t index []
  simpa [TorchPixelHelper.walk] using h

/-! ## The assignment operator -/

namespace TorchPixelHelper

theorem assign_arithmetic_eq {α : Type} (t : Tensor α) (index : List Int) (value : α) :
    assign .arithmetic ⟨t, index⟩ value =
      (resolve t.sizes index).map (fun q =>
        ⟨⟨t.sizes, fun p => if q.isPrefixOf p then value else t.data p⟩, index⟩) := by
  simp only [assign, walk_eq]
  cases resolve t.sizes index <;> rfl

theorem assignComponents_spec {α β : Type}
    (f : TorchPixelHelper α → β → Option (TorchPixelHelper α))
    (hf : ∀ (t : Tensor α) (index : List Int) (x : β) (h' : TorchPixelHelper α),
      f ⟨t, index⟩ x = some h' → h'.m_Tensor.sizes = t.sizes ∧
        ∀ p, (∀ q, resolve t.sizes index = some q → ¬ q <+: p) →
          h'.m_Tensor.data p = t.data p) :
    ∀ (values : List β) (i : Nat) (t : Tensor α) (index : List Int) (h' : TorchPixelHelper α),
      assignComponents f i values ⟨t, index⟩ = some h' →
        h'.m_TorchIndex = index ∧ h'.m_Tensor.sizes = t.sizes ∧
          ∀ p, (∀ (j : Nat) q, i ≤ j → resolve t.sizes (index ++ [(j : Int)]) = some q →
            ¬ q <+: p) → h'.m_Tensor.data p = t.data p
  | [], i, t, index, h', h => by
    simp only [assignComponents, Option.some.injEq] at h
    subst h
    exact ⟨rfl, rfl, fun _ _ => rfl⟩
  | x :: values, i, t, index, h', h => by
    simp only [assignComponents, List.dropLast_concat] at h
    split at h
    · exact absurd h (by simp)
    · rename_i next hnext
      obtain ⟨hs1, hd1⟩ := hf t _ x next hnext
      obtain ⟨hi2, hs2, hd2⟩ := assignComponents_spec f hf values (i + 1) next.m_Tensor index h' h
      refine ⟨hi2, hs2.trans hs1, fun p hp => ?_⟩
      rw [hd2 p (fun j q hj hq => hp j q (by omega) (hs1 ▸ hq))]
      exact hd1 p (fun q hq => hp i q (le_refl i) hq)

/-- The assignment keeps the torch index and the shape, and changes no scalar at a
position that does not extend the coordinates of the torch index. -/
theorem assign_spec {α : Type} : ∀ (ty : PixelType) (t : Tensor α) (index : List Int)
    (value : PixelValue α ty) (h' : TorchPixelHelper α),
    assign ty ⟨t, index⟩ value = some h' →
      h'.m_TorchIndex = index ∧ h'.m_Tensor.sizes = t.sizes ∧
        ∀ p, (∀ q, resolve t.sizes index = some q → ¬ q <+: p) →
          h'.m_Tensor.data p = t.data p
  | .arithmetic, t, index, value, h', h => by
    rw [assign_arithmetic_eq] at h
    cases hr : resolve t.sizes index with
    | none => simp [hr] at h
    | some q =>
      simp only [hr, Option.map_some', Option.some.injEq] at h
      subst h
      refine ⟨rfl, rfl, fun p hp => ?_⟩
      have hq : q.isPrefixOf p = false := by
        cases hb : q.isPrefixOf p with
        | false => rfl
        | true => exact absurd (List.isPrefixOf_iff_prefix.1 hb) (hp q rfl)
      simp [hq]
  | .vector n ty, t, index, value, h', h => by
    simp only [assign] at h
    obtain ⟨hi, hs, hd⟩ := assignComponents_spec (assign ty)
      (fun t index x h' hx => (assign_spec ty t index x h' hx).2) value.val 0 t index h' h
    refine ⟨hi, hs, fun p hp => hd p (fun j q _ hq => ?_)⟩
    obtain ⟨q0, hq0, rfl⟩ := resolve_append_nat t.sizes index j q hq
    exact fun hpre => hp q0 hq0 ((List.prefix_append q0 [j]).trans hpre)

theorem assignComponents_isSome {α β : Type}
    (f : TorchPixelHelper α → β → Option (TorchPixelHelper α))
    (A : List Nat → List Int → Prop)
    (hs : ∀ (t : Tensor α) (index : List Int) (x : β) (h' : TorchPixelHelper α),
      f ⟨t, index⟩ x = some h' → h'.m_Tensor.sizes = t.sizes)
    (hf : ∀ (t : Tensor α) (index : List Int) (x : β), A t.sizes index →
      ∃ h', f ⟨t, index⟩ x = some h') :
    ∀ (values : List β) (i : Nat) (t : Tensor α) (index : List Int),
      (∀ j, i ≤ j → j < i + values.length → A t.sizes (index ++ [(j : Int)])) →
        ∃ h', assignComponents f i values ⟨t, index⟩ = some h'
  | [], i, t, index, _ => ⟨_, rfl⟩
  | x :: values, i, t, index, hA => by
    obtain ⟨next, hnext⟩ := hf t (index ++ [(i : Int)]) x
      (hA i (le_refl i) (by simp))
    have hsz := hs t _ x next hnext
    obtain ⟨h', hh'⟩ := assignComponents_isSome f A hs hf values (i + 1) next.m_Tensor index
      (fun j h1 h2 => hsz ▸ hA j (by omega) (by simp only [List.length_cons]; omega))
    refine ⟨h', ?_⟩
    simp only [assignComponents, List.dropLast_concat, hnext]
    exact hh'

/-- The assignment succeeds on a tensor whose shape admits the torch index. -/
theorem assign_isSome {α : Type} : ∀ (ty : PixelType) (t : Tensor α) (index : List Int)
    (value : PixelValue α ty), Admits ty t.sizes index →
      ∃ h', assign ty ⟨t, index⟩ value = some h'
  | .arithmetic, t, index, value, hA => by
    rw [assign_arithmetic_eq]
    obtain ⟨q, hq⟩ := Option.isSome_iff_exists.1 ((resolve_isSome_iff t.sizes index).2 hA.1)
    exact ⟨_, by rw [hq]; rfl⟩
  | .vector n ty, t, index, value, hA => by
    simp only [assign]
    exact assignComponents_isSome (assign ty) (Admits ty)
      (fun t index x h' hx => (assign_spec ty t index x h' hx).2.1)
      (fun t index x hx => assign_isSome ty t index x hx) value.val 0 t index
      (fun j _ h2 => hA j (by rw [value.property] at h2; omega))

end TorchPixelHelper

/-! ## The conversion operator -/

namespace TorchPixelHelper

theorem convert_arithmetic_eq {α : Type} (t : Tensor α) (index : List Int) :
    convert .arithmetic ⟨t, index⟩ =
      match resolve t.sizes index with
      | none => none
      | some q =>
        if (t.sizes.drop q.length).prod = 1 then
          some (t.data (q ++ List.replicate (t.sizes.drop q.length).length 0), ⟨t, index⟩)
        else none := by
  simp only [convert, walk_eq]
  cases resolve t.sizes index with
  | none => rfl
  | some q =>
    simp only [Option.map_some', TensorView.item, TensorView.numel, TensorView.sizes]
    by_cases hn : (t.sizes.drop q.length).prod = 1
    · simp only [if_pos hn]
    · simp only [if_neg hn]

theorem convertComponents_self {α β : Type}
    (f : TorchPixelHelper α → Option (β × TorchPixelHelper α))
    (hf : ∀ h r, f h = some r → r.2 = h) :
    ∀ (count i : Nat) (self : TorchPixelHelper α)
      (r : { xs : List β // xs.length = count } × TorchPixelHelper α),
      convertComponents f count i self = some r → r.2 = self
  | 0, _, self, r, h => by
    simp only [convertComponents, Option.some.injEq] at h
    subst h; rfl
  | count + 1, i, self, r, h => by
    simp only [convertComponents, List.dropLast_concat] at h
    split at h
    · exact absurd h (by simp)
    · rename_i x next hnext
      have hn := hf _ _ hnext
      simp only at hn
      subst hn
      split at h
      · exact absurd h (by simp)
      · rename_i xs self1 hrec
        have h2 := convertComponents_self f hf count (i + 1) _ _ hrec
        simp only [Option.some.injEq] at h
        subst h
        exact h2

/-- The conversion leaves the helper as it was: the same tensor and the same index. -/
theorem convert_self {α : Type} : ∀ (ty : PixelType) (self : TorchPixelHelper α)
    (r : PixelValue α ty × TorchPixelHelper α), convert ty self = some r → r.2 = self
  | .arithmetic, self, r, h => by
    simp only [convert] at h
    split at h
    · exact absurd h (by simp)
    · split at h
      · exact absurd h (by simp)
      · simp only [Option.some.injEq] at h
        subst h; rfl
  | .vector n ty, self, r, h => by
    simp only [convert] at h
    exact convertComponents_self (convert ty) (convert_self ty) n 0 self r h

/-- One step of the conversion loop for a next-level conversion that leaves its helper
as it was. -/
theorem convertComponents_succ {α β : Type}
    (f : TorchPixelHelper α → Option (β × TorchPixelHelper α))
    (hf : ∀ h r, f h = some r → r.2 = h)
    (count i : Nat) (t : Tensor α) (index : List Int) :
    (convertComponents f (count + 1) i ⟨t, index⟩).map (fun r => r.1.val) =
      match (f ⟨t, index ++ [(i : Int)]⟩).map (fun r => r.1),
        (convertComponents f count (i + 1) ⟨t, index⟩).map (fun r => r.1.val) with
      | some x, some xs => some (x :: xs)
      | _, _ => none := by
  simp only [convertComponents, List.dropLast_concat]
  cases e1 : f ⟨t, index ++ [(i : Int)]⟩ with
  | none => rfl
  | some r1 =>
    obtain ⟨x, next⟩ := r1
    have hn := hf _ _ e1
    simp only at hn
    subst hn
    simp only [Option.map_some']
    cases e2 : convertComponents f count (i + 1) ⟨t, index⟩ with
    | none => rfl
    | some r2 => rfl

theorem convertComponents_congr {α β : Type}
    (f : TorchPixelHelper α → Option (β × TorchPixelHelper α))
    (hf : ∀ h r, f h = some r → r.2 = h)
    (hc : ∀ (t1 t2 : Tensor α) (index : List Int), t1.sizes = t2.sizes →
      (∀ q, resolve t1.sizes index = some q → ∀ p, q <+: p → t1.data p = t2.data p) →
        (f ⟨t1, index⟩).map (fun r => r.1) = (f ⟨t2, index⟩).map (fun r => r.1))
    (t1 t2 : Tensor α) (index : List Int) (hs : t1.sizes = t2.sizes) :
    ∀ (count i : Nat),
      (∀ (j : Nat) q, i ≤ j → resolve t1.sizes (index ++ [(j : Int)]) = some q →
        ∀ p, q <+: p → t1.data p = t2.data p) →
      (convertComponents f count i ⟨t1, index⟩).map (fun r => r.1.val) =
        (convertComponents f count i ⟨t2, index⟩).map (fun r => r.1.val)
  | 0, i, _ => rfl
  | count + 1, i, hd => by
    rw [convertComponents_succ f hf, convertComponents_succ f hf,
      hc t1 t2 (index ++ [(i : Int)]) hs (fun q hq p hp => hd i q (le_refl i) hq p hp),
      convertComponents_congr f hf hc t1 t2 index hs count (i + 1)
        (fun j q hj hq p hp => hd j q (by omega) hq p hp)]

/-- The pixel read depends only on the shape and on the scalars at the positions that
extend the coordinates of the torch index. -/
theorem convert_congr {α : Type} : ∀ (ty : PixelType) (t1 t2 : Tensor α) (index : List Int),
    t1.sizes = t2.sizes →
    (∀ q, resolve t1.sizes index = some q → ∀ p, q <+: p → t1.data p = t2.data p) →
      (convert ty ⟨t1, index⟩).map (fun r => r.1) = (convert ty ⟨t2, index⟩).map (fun r => r.1)
  | .arithmetic, t1, t2, index, hs, hd => by
    rw [convert_arithmetic_eq, convert_arithmetic_eq, ← hs]
    cases hr : resolve t1.sizes index with
    | none => rfl
    | some q =>
      simp only
      rw [hd q hr _ (List.prefix_append q _)]
      split <;> rfl
  | .vector n ty, t1, t2, index, hs, hd => by
    have h := convertComponents_congr (convert ty) (convert_self ty)
      (convert_congr ty) t1 t2 index hs n 0 (fun j q _ hq p hp => by
        obtain ⟨q0, hq0, rfl⟩ := resolve_append_nat t1.sizes index j q hq
        exact hd q0 hq0 p ((List.prefix_append q0 [j]).trans hp))
    simp only [convert]
    cases e1 : convertComponents (convert ty) n 0 ⟨t1, index⟩ with
    | none =>
      cases e2 : convertComponents (convert ty) n 0 ⟨t2, index⟩ with
      | none => rfl
      | some r2 => simp [e1, e2] at h
    | some r1 =>
      cases e2 : convertComponents (convert ty) n 0 ⟨t2, index⟩ with
      | none => simp [e1, e2] at h
      | some r2 =>
        simp only [e1, e2, Option.map_some', Option.some.injEq] at h
        simp only [Option.map_some', Option.some.injEq]
        exact Subtype.ext h

end TorchPixelHelper

/-! ## Reading back what was assigned -/

namespace TorchPixelHelper

theorem initial_eq_of_length {q q' p : List Nat} (h : q <+: p) (h' : q' <+: p)
    (hl : q.length = q'.length) : q = q' :=
  (List.prefix_of_prefix_length_le h h' (le_of_eq hl)).eq_of_length hl

theorem assignComponents_convert {α β : Type}
    (fa : TorchPixelHelper α → β → Option (TorchPixelHelper α))
    (fc : TorchPixelHelper α → Option (β × TorchPixelHelper α))
    (A : List Nat → List Int → Prop)
    (hspec : ∀ (t : Tensor α) (index : List Int) (x : β) (h' : TorchPixelHelper α),
      fa ⟨t, index⟩ x = some h' → h'.m_Tensor.sizes = t.sizes ∧
        ∀ p, (∀ q, resolve t.sizes index = some q → ¬ q <+: p) →
          h'.m_Tensor.data p = t.data p)
    (hread : ∀ (t : Tensor α) (index : List Int) (x : β) (h' : TorchPixelHelper α),
      A t.sizes index → fa ⟨t, index⟩ x = some h' →
        (fc ⟨h'.m_Tensor, index⟩).map (fun r => r.1) = some x)
    (hself : ∀ h r, fc h = some r → r.2 = h)
    (hcongr : ∀ (t1 t2 : Tensor α) (index : List Int), t1.sizes = t2.sizes →
      (∀ q, resolve t1.sizes index = some q → ∀ p, q <+: p → t1.data p = t2.data p) →
        (fc ⟨t1, index⟩).map (fun r => r.1) = (fc ⟨t2, index⟩).map (fun r => r.1)) :
    ∀ (values : List β) (count i : Nat) (t : Tensor α) (index : List Int)
      (h' : TorchPixelHelper α), values.length = count →
      (∀ j, i ≤ j → j < i + count → A t.sizes (index ++ [(j : Int)])) →
      assignComponents fa i values ⟨t, index⟩ = some h' →
        (convertComponents fc count i ⟨h'.m_Tensor, index⟩).map (fun r => r.1.val) =
          some values
  | [], count, i, t, index, h', hl, _, _ => by
    simp only [List.length_nil] at hl
    subst hl
    rfl
  | x :: values, count, i, t, index, h', hl, hA, h => by
    cases count with
    | zero => simp at hl
    | succ count =>
      simp only [List.length_cons, Nat.add_right_cancel_iff] at hl
      simp only [assignComponents, List.dropLast_concat] at h
      split at h
      · exact absurd h (by simp)
      · rename_i next hnext
        obtain ⟨hs1, _⟩ := hspec t _ x next hnext
        obtain ⟨_, hs2, hd2⟩ := assignComponents_spec fa hspec values (i + 1) next.m_Tensor
          index h' h
        have ih := assignComponents_convert fa fc A hspec hread hself hcongr values count
          (i + 1) next.m_Tensor index h' hl
          (fun j h1 h2 => hs1 ▸ hA j (by omega) (by omega)) h
        have hE := hread t _ x next (hA i (le_refl i) (by omega)) hnext
        have hC := hcongr next.m_Tensor h'.m_Tensor (index ++ [(i : Int)]) hs2.symm
          (fun q hq p hp => (hd2 p (fun j q' hj hq' hp' => by
            obtain ⟨q0, hq0, rfl⟩ := resolve_append_nat _ index i q hq
            obtain ⟨q0', hq0', rfl⟩ := resolve_append_nat _ index j q' hq'
            rw [hq0] at hq0'
            simp only [Option.some.injEq] at hq0'
            subst hq0'
            have := initial_eq_of_length hp hp' (by simp)
            simp only [List.append_cancel_left_eq, List.cons.injEq, and_true] at this
            omega)).symm)
        rw [convertComponents_succ fc hself, ← hC, hE, ih]

/-- On a tensor whose shape admits the torch index, converting after assigning gives the
assigned pixel. -/
theorem assign_convert {α : Type} : ∀ (ty : PixelType) (t : Tensor α) (index : List Int)
    (value : PixelValue α ty) (h' : TorchPixelHelper α), Admits ty t.sizes index →
    assign ty ⟨t, index⟩ value = some h' →
      (convert ty ⟨h'.m_Tensor, index⟩).map (fun r => r.1) = some value
  | .arithmetic, t, index, value, h', hA, h => by
    rw [assign_arithmetic_eq] at h
    cases hr : resolve t.sizes index with
    | none => simp [hr] at h
    | some q =>
      simp only [hr, Option.map_some', Option.some.injEq] at h
      subst h
      have hl := resolve_length _ _ _ hr
      have hn : (t.sizes.drop q.length).prod = 1 := by rw [hl]; exact hA.2
      rw [convert_arithmetic_eq]
      simp only [hr, if_pos hn, Option.map_some', Option.some.injEq]
      have hp : q.isPrefixOf (q ++ List.replicate (t.sizes.drop q.length).length 0) = true :=
        List.isPrefixOf_iff_prefix.2 (List.prefix_append q _)
      simp only [hp, if_true]
  | .vector n ty, t, index, value, h', hA, h => by
    simp only [assign] at h
    have hl := assignComponents_convert (assign ty) (convert ty) (Admits ty)
      (fun t index x h' hx => (assign_spec ty t index x h' hx).2)
      (assign_convert ty) (convert_self ty) (convert_congr ty) value.val n 0 t index h'
      value.property (fun j _ h2 => hA j (by omega)) h
    simp only [convert]
    cases e : convertComponents (convert ty) n 0 ⟨h'.m_Tensor, index⟩ with
    | none => simp [e] at hl
    | some r =>
      simp only [e, Option.map_some', Option.some.injEq] at hl
      simp only [Option.map_some', Option.some.injEq]
      exact Subtype.ext hl

end TorchPixelHelper

/-! ## The shape of the tensor -/

theorem appendSizes_eq : ∀ (ty : PixelType) (size : List Nat),
    TorchPixelHelper.AppendSizes ty size = size ++ ty.dimensions
  | .arithmetic, size => by simp [TorchPixelHelper.AppendSizes, PixelType.dimensions]
  | .vector n ty, size => by
    simp [TorchPixelHelper.AppendSizes, PixelType.dimensions, appendSizes_eq ty]

theorem dimensions_length : ∀ (ty : PixelType),
    ty.dimensions.length = TorchPixelHelper.PixelDimension ty
  | .arithmetic => rfl
  | .vector n ty => by
    simp [PixelType.dimensions, TorchPixelHelper.PixelDimension, dimensions_length ty,
      Nat.add_comm]

theorem computeTorchSize_eq {α : Type} (ty : PixelType) (self : TorchImage α) :
    TorchImage.ComputeTorchSize ty self = self.m_BufferedRegionSize.reverse ++ ty.dimensions :=
  appendSizes_eq ty _

/-- An image is allocated once `Allocate` has run. -/
theorem isAllocated_allocate {α : Type} (ty : PixelType) (self : TorchImage α)
    (contents : List Nat → α) :
    TorchImage.IsAllocated ty (TorchImage.Allocate ty self contents) :=
  ⟨rfl, rfl⟩

theorem contiguousStride_antitone (sizes : List Nat) (k j : Nat) (h : k ≤ j) :
    contiguousStride sizes j ≤ contiguousStride sizes k := by
  obtain ⟨d, rfl⟩ := Nat.exists_eq_add_of_le h
  have hsplit : sizes.drop (k + 1) =
      (sizes.drop (k + 1)).take d ++ sizes.drop (k + d + 1) := by
    have := (List.take_append_drop d (sizes.drop (k + 1))).symm
    rw [List.drop_drop] at this
    have e : k + 1 + d = k + d + 1 := by omega
    rw [e] at this
    exact this
  unfold contiguousStride
  rw [hsplit, List.map_append, List.prod_append]
  apply Nat.le_mul_of_pos_left
  apply List.prod_pos
  intro a ha
  obtain ⟨s, _, rfl⟩ := List.mem_map.1 ha
  exact lt_of_lt_of_le Nat.zero_lt_one (le_max_right s 1)

/-- C8: every nesting level of the pixel type is exactly one more tensor dimension.
`PixelDimension` is 0 for an arithmetic pixel type and 1 more than that of the component
type for a vector pixel type, so it is the nesting depth; `AppendSizes` appends that many
sizes; and `TorchDimension` is `ImageDimension + PixelDimension`. -/
theorem C8_pixelDimension_is_depth :
    TorchPixelHelper.PixelDimension .arithmetic = 0 ∧
    (∀ n ty, TorchPixelHelper.PixelDimension (.vector n ty) =
      1 + TorchPixelHelper.PixelDimension ty) ∧
    (∀ ty, TorchPixelHelper.PixelDimension ty = ty.depth) ∧
    (∀ ty size, (TorchPixelHelper.AppendSizes ty size).length =
      size.length + TorchPixelHelper.PixelDimension ty) ∧
    (∀ ty ImageDimension, TorchImage.TorchDimension ty ImageDimension =
      ImageDimension + TorchPixelHelper.PixelDimension ty) := by
  refine ⟨rfl, fun _ _ => rfl, fun ty => ?_, fun ty size => ?_, fun _ _ => rfl⟩
  · induction ty with
    | arithmetic => rfl
    | vector n ty ih =>
      simp [TorchPixelHelper.PixelDimension, PixelType.depth, ih, Nat.add_comm]
  · rw [appendSizes_eq, List.length_append, dimensions_length]

/-- C9: pixel dimensions are appended outermost first.  For a vector of X components
that are vectors of Y scalars `AppendSizes` appends X and then Y; in general it appends
the `Dimension` of every nesting level from the outermost to the innermost. -/
theorem C9_appendSizes_outermost_first :
    (∀ (X Y : Nat) (size : List Nat),
      TorchPixelHelper.AppendSizes (.vector X (.vector Y .arithmetic)) size = size ++ [X, Y]) ∧
    (∀ (ty : PixelType) (size : List Nat),
      TorchPixelHelper.AppendSizes ty size = size ++ ty.dimensions) :=
  ⟨fun X Y size => by simp [appendSizes_eq, PixelType.dimensions], appendSizes_eq⟩

/-- C10: the layout of the tensor shape.  `ComputeTorchSize` gives the sizes of the
buffered region in reverse order followed by the sizes of the pixel's nesting levels, as
many entries as `TorchDimension`.  Image dimension `k` is tensor dimension
`ImageDimension - 1 - k` and nesting level `j` is tensor dimension `ImageDimension + j`;
in the contiguous tensor no image dimension has a smaller stride than `Index[0]`, and no
pixel dimension has a larger stride than an image dimension. -/
theorem C10_computeTorchSize_layout {α : Type} (ty : PixelType) (self : TorchImage α) :
    TorchImage.ComputeTorchSize ty self =
      self.m_BufferedRegionSize.reverse ++
        TorchPixelHelper.AppendSizes ty [] ∧
    (TorchImage.ComputeTorchSize ty self).length =
      TorchImage.TorchDimension ty self.ImageDimension ∧
    (∀ k, k < self.ImageDimension →
      (TorchImage.ComputeTorchSize ty self)[self.ImageDimension - 1 - k]? =
        self.m_BufferedRegionSize[k]?) ∧
    (∀ j, j < TorchPixelHelper.PixelDimension ty →
      (TorchImage.ComputeTorchSize ty self)[self.ImageDimension + j]? = ty.dimensions[j]?) ∧
    (∀ k, k < self.ImageDimension →
      contiguousStride (TorchImage.ComputeTorchSize ty self) (self.ImageDimension - 1) ≤
        contiguousStride (TorchImage.ComputeTorchSize ty self)
          (self.ImageDimension - 1 - k)) ∧
    (∀ j k, j < TorchPixelHelper.PixelDimension ty → k < self.ImageDimension →
      contiguousStride (TorchImage.ComputeTorchSize ty self) (self.ImageDimension + j) ≤
        contiguousStride (TorchImage.ComputeTorchSize ty self)
          (self.ImageDimension - 1 - k)) := by
  refine ⟨?_, ?_, fun k hk => ?_, fun j hj => ?_, fun k _ => ?_, fun j k _ _ => ?_⟩
  · rw [computeTorchSize_eq, appendSizes_eq, List.nil_append]
  · rw [computeTorchSize_eq, List.length_append, List.length_reverse, dimensions_length]
    rfl
  · unfold TorchImage.ImageDimension at hk ⊢
    rw [computeTorchSize_eq, List.getElem?_append_left (by rw [List.length_reverse]; omega),
      List.getElem?_reverse (by omega)]
    congr 1
    omega
  · unfold TorchImage.ImageDimension
    rw [computeTorchSize_eq, List.getElem?_append_right (by rw [List.length_reverse]; omega),
      List.length_reverse]
    congr 1
    omega
  · exact contiguousStride_antitone _ _ _ (by omega)
  · exact contiguousStride_antitone _ _ _ (by omega)

/-! ## Device selection -/

/-- C6: the device selection round trip.  When the one-argument `SetDevice` returns true
for a device type, `GetDevice` then reports that device type and device number 0. -/
theorem C6_setDevice_getDevice {α : Type} (cudaDeviceCount : Nat) (self : TorchImage α)
    (deviceType : DeviceType)
    (h : (TorchImage.SetDevice cudaDeviceCount self deviceType).1 = true) :
    TorchImage.GetDevice (TorchImage.SetDevice cudaDeviceCount self deviceType).2 =
      (deviceType, 0) := by
  cases deviceType with
  | itkCPU => rfl
  | itkCUDA =>
    unfold TorchImage.SetDevice TorchImage.SetDeviceNumber at h ⊢
    by_cases hc : 0 < cudaDeviceCount
    · simp only [if_pos hc]
      rfl
    · simp [if_neg hc] at h

theorem C6_setDevice_getDevice_witness :
    (TorchImage.SetDevice 1 exampleImage .itkCUDA).1 = true ∧
    TorchImage.GetDevice (TorchImage.SetDevice 1 exampleImage .itkCUDA).2 =
      (DeviceType.itkCUDA, 0) :=
  ⟨by decide, C6_setDevice_getDevice 1 exampleImage .itkCUDA (by decide)⟩

/-- C7: the CPU can always be selected.  `SetDevice( itkCPU )` returns true on every
image, also on the image a preceding `SetDevice( itkCUDA )` left, whatever that call
returned. -/
theorem C7_setDevice_cpu_succeeds {α : Type} (cudaDeviceCount : Nat) (self : TorchImage α) :
    (TorchImage.SetDevice cudaDeviceCount self .itkCPU).1 = true ∧
    (TorchImage.SetDevice cudaDeviceCount
      (TorchImage.SetDevice cudaDeviceCount self .itkCUDA).2 .itkCPU).1 = true :=
  ⟨rfl, rfl⟩

/-! ## Indices inside the buffered region -/

theorem isInside_iff_forall₂ : ∀ (sizes : List Nat) (index : List Int),
    TorchImage.IsInside sizes index ↔
      List.Forall₂ (fun (i : Int) (size : Nat) => 0 ≤ i ∧ i < (size : Int)) index sizes
  | [], [] => by simp [TorchImage.IsInside]
  | [], _ :: _ => by simp [TorchImage.IsInside]
  | _ :: _, [] => by simp [TorchImage.IsInside]
  | size :: sizes, i :: index => by
    simp [TorchImage.IsInside, isInside_iff_forall₂ sizes index]

theorem forall₂_nonneg {index : List Int} {sizes : List Nat}
    (h : List.Forall₂ (fun (i : Int) (size : Nat) => 0 ≤ i ∧ i < (size : Int)) index sizes) :
    ∀ i ∈ index, 0 ≤ i := by
  induction h with
  | nil => simp
  | cons hab _ ih =>
    intro i hi
    rcases List.mem_cons.1 hi with rfl | hi
    · exact hab.1
    · exact ih i hi

theorem indexInRange_of_forall₂ {index : List Int} {sizes : List Nat}
    (h : List.Forall₂ (fun (i : Int) (size : Nat) => 0 ≤ i ∧ i < (size : Int)) index sizes)
    (rest : List Nat) : IndexInRange (sizes ++ rest) index := by
  induction h with
  | nil => cases rest <;> trivial
  | cons hab _ ih => exact ⟨⟨by omega, hab.2⟩, ih⟩

theorem indexInRange_append : ∀ (sizes : List Nat) (index : List Int) (size : Nat)
    (tail : List Nat) (j : Nat), IndexInRange sizes index →
    sizes.drop index.length = size :: tail → j < size →
      IndexInRange sizes (index ++ [(j : Int)])
  | [], [], size, tail, j, _, hd, _ => by simp at hd
  | s :: sizes, [], size, tail, j, _, hd, hj => by
    simp only [List.length_nil, List.drop_zero, List.cons.injEq] at hd
    obtain ⟨rfl, _⟩ := hd
    exact ⟨⟨by omega, by omega⟩, by cases sizes <;> trivial⟩
  | [], _ :: _, size, tail, j, h, _, _ => h.elim
  | s :: sizes, i :: index, size, tail, j, h, hd, hj => by
    simp only [List.length_cons, List.drop_succ_cons] at hd
    exact ⟨h.1, indexInRange_append sizes index size tail j h.2 hd hj⟩

/-- A torch index within a shape whose remaining dimensions are those of the pixel type
is admitted. -/
theorem admits_of_drop : ∀ (ty : PixelType) (sizes : List Nat) (index : List Int),
    IndexInRange sizes index → sizes.drop index.length = ty.dimensions →
      Admits ty sizes index
  | .arithmetic, sizes, index, hr, hd => by
    refine ⟨hr, ?_⟩
    rw [hd]
    rfl
  | .vector n ty, sizes, index, hr, hd => by
    intro i hi
    refine admits_of_drop ty sizes _ (indexInRange_append sizes index n _ i hr hd hi) ?_
    rw [List.length_append, List.length_singleton, ← List.drop_drop, hd]
    rfl

/-- The torch index of a pixel inside the buffered region is admitted by the tensor of an
allocated image. -/
theorem admits_of_isAllocated {α : Type} (ty : PixelType) (self : TorchImage α)
    (index : List Int) (ha : TorchImage.IsAllocated ty self)
    (hi : TorchImage.IsInside self.m_BufferedRegionSize index) :
    Admits ty self.m_Tensor.sizes index.reverse := by
  have h2 := ((isInside_iff_forall₂ _ _).1 hi)
  have hl := h2.length_eq
  have h3 := List.rel_reverse h2
  rw [ha.2, computeTorchSize_eq]
  refine admits_of_drop ty _ _ (indexInRange_of_forall₂ h3 _) ?_
  rw [List.length_reverse, hl, ← List.length_reverse, List.drop_left]

theorem resolve_nonneg : ∀ (sizes : List Nat) (index : List Int) (q : List Nat),
    resolve sizes index = some q → (∀ i ∈ index, 0 ≤ i) → q.map Int.ofNat = index
  | _, [], q, h, _ => by
    simp only [resolve, Option.some.injEq] at h
    subst h; rfl
  | [], _ :: _, q, h, _ => by simp [resolve] at h
  | size :: sizes, i :: index, q, h, hn => by
    simp only [resolve] at h
    split at h
    · split at h
      · exact absurd h (by simp)
      · rename_i q' hq'
        have h0 : 0 ≤ i := hn i (List.mem_cons_self _ _)
        have ih := resolve_nonneg sizes index q' hq'
          (fun j hj => hn j (List.mem_cons_of_mem _ hj))
        simp only [Option.some.injEq] at h
        subst h
        have hni : ¬ (i < 0) := by omega
        simp only [hni, if_false, List.map_cons, ih, List.cons.injEq, and_true]
        exact Int.toNat_of_nonneg h0
    · exact absurd h (by simp)

/-- Assigning at one torch index does not change what is read at a different torch index
of the same length, both without negative entries. -/
theorem TorchPixelHelper.assign_convert_other {α : Type} (ty : PixelType) (t : Tensor α)
    (ia ib : List Int) (value : PixelValue α ty) (h' : TorchPixelHelper α)
    (hl : ia.length = ib.length) (ha : ∀ i ∈ ia, 0 ≤ i) (hb : ∀ i ∈ ib, 0 ≤ i)
    (hne : ia ≠ ib) (h : TorchPixelHelper.assign ty ⟨t, ia⟩ value = some h') :
    (TorchPixelHelper.convert ty ⟨h'.m_Tensor, ib⟩).map (fun r => r.1) =
      (TorchPixelHelper.convert ty ⟨t, ib⟩).map (fun r => r.1) := by
  obtain ⟨_, hs, hd⟩ := TorchPixelHelper.assign_spec ty t ia value h' h
  refine TorchPixelHelper.convert_congr ty _ _ ib hs (fun qb hqb p hp => hd p ?_)
  intro qa hqa hpa
  rw [hs] at hqb
  have hla := resolve_length _ _ _ hqa
  have hlb := resolve_length _ _ _ hqb
  have heq := TorchPixelHelper.initial_eq_of_length hpa hp (by omega)
  have ea := resolve_nonneg _ _ _ hqa ha
  have eb := resolve_nonneg _ _ _ hqb hb
  exact hne (by rw [← ea, ← eb, heq])

/-! ## Pixels of an image -/

theorem getPixelValue_eq {α : Type} (ty : PixelType) (self : TorchImage α) (index : List Int) :
    TorchImage.GetPixelValue ty self index =
      (TorchPixelHelper.convert ty ⟨self.m_Tensor, index.reverse⟩).map (fun r => r.1) := by
  unfold TorchImage.GetPixelValue TorchImage.GetPixel
  cases TorchPixelHelper.convert ty ⟨self.m_Tensor, index.reverse⟩ <;> rfl

theorem reverse_ne {a b : List Int} (h : a ≠ b) : a.reverse ≠ b.reverse :=
  fun e => h (List.reverse_injective e)

theorem isInside_reverse_nonneg {sizes : List Nat} {index : List Int}
    (h : TorchImage.IsInside sizes index) : ∀ i ∈ index.reverse, 0 ≤ i :=
  fun i hi => forall₂_nonneg ((isInside_iff_forall₂ _ _).1 h) i (List.mem_reverse.1 hi)

theorem isInside_length {sizes : List Nat} {index : List Int}
    (h : TorchImage.IsInside sizes index) : index.reverse.length = sizes.length := by
  rw [List.length_reverse]
  exact ((isInside_iff_forall₂ _ _).1 h).length_eq

/-- C1: the write-then-read round trip through the pixel helper.  For every pixel type,
every tensor whose shape admits the helper's torch index and every pixel value, the
assignment through the helper succeeds, and converting the helper for the same torch
index on the tensor afterwards gives a pixel equal to the value. -/
theorem C1_assign_then_convert {α : Type} (ty : PixelType) (t : Tensor α) (index : List Int)
    (value : PixelValue α ty) (hadmits : Admits ty t.sizes index) :
    ∃ h', TorchPixelHelper.assign ty ⟨t, index⟩ value = some h' ∧
      (TorchPixelHelper.convert ty ⟨h'.m_Tensor, index⟩).map (fun r => r.1) = some value := by
  obtain ⟨h', hh'⟩ := TorchPixelHelper.assign_isSome ty t index value hadmits
  exact ⟨h', hh', TorchPixelHelper.assign_convert ty t index value h' hadmits hh'⟩

theorem C1_assign_then_convert_witness :
    Admits examplePixelType exampleTensor.sizes [1] ∧
    ∃ h', TorchPixelHelper.assign examplePixelType ⟨exampleTensor, [1]⟩ examplePixel = some h' ∧
      (TorchPixelHelper.convert examplePixelType ⟨h'.m_Tensor, [1]⟩).map (fun r => r.1) =
        some examplePixel :=
  ⟨by decide, C1_assign_then_convert examplePixelType exampleTensor [1] examplePixel
    (by decide)⟩

/-- C2: assigning through `GetPixel` as an lvalue has no side effect on other pixels.
For every image and distinct indices `a` and `b` inside the buffered region, whenever
`GetPixel( a ) = value` completes, `GetPixel( b )` reads afterwards what it read before;
on an allocated image the assignment does complete. -/
theorem C2_getPixel_assign_frame {α : Type} (ty : PixelType) (self : TorchImage α)
    (a b : List Int) (value : PixelValue α ty) (hne : a ≠ b)
    (ha : TorchImage.IsInside self.m_BufferedRegionSize a)
    (hb : TorchImage.IsInside self.m_BufferedRegionSize b) :
    (TorchImage.IsAllocated ty self →
      ∃ self', TorchImage.GetPixelAssign ty self a value = some self') ∧
    ∀ self', TorchImage.GetPixelAssign ty self a value = some self' →
      TorchImage.GetPixelValue ty self' b = TorchImage.GetPixelValue ty self b := by
  constructor
  · intro halloc
    obtain ⟨h', hh'⟩ := TorchPixelHelper.assign_isSome ty self.m_Tensor a.reverse value
      (admits_of_isAllocated ty self a halloc ha)
    exact ⟨{ self with m_Tensor := h'.m_Tensor },
      by simp only [TorchImage.GetPixelAssign, TorchImage.GetPixel, hh']⟩
  · intro self' h
    simp only [TorchImage.GetPixelAssign, TorchImage.GetPixel] at h
    split at h
    · exact absurd h (by simp)
    · rename_i helper hh
      simp only [Option.some.injEq] at h
      subst h
      rw [getPixelValue_eq, getPixelValue_eq]
      exact TorchPixelHelper.assign_convert_other ty self.m_Tensor a.reverse b.reverse value
        helper ((isInside_length ha).trans (isInside_length hb).symm)
        (isInside_reverse_nonneg ha) (isInside_reverse_nonneg hb) (reverse_ne hne) hh

theorem C2_getPixel_assign_frame_witness :
    ([1, 0] : List Int) ≠ [0, 1] ∧
    TorchImage.IsInside
      (TorchImage.Allocate examplePixelType exampleImage (fun _ => 7)).m_BufferedRegionSize
      [1, 0] ∧
    TorchImage.IsInside
      (TorchImage.Allocate examplePixelType exampleImage (fun _ => 7)).m_BufferedRegionSize
      [0, 1] ∧
    ∃ self', TorchImage.GetPixelAssign examplePixelType
        (TorchImage.Allocate examplePixelType exampleImage (fun _ => 7)) [1, 0] examplePixel =
          some self' ∧
      TorchImage.GetPixelValue examplePixelType self' [0, 1] =
        TorchImage.GetPixelValue examplePixelType
          (TorchImage.Allocate examplePixelType exampleImage (fun _ => 7)) [0, 1] := by
  have h := C2_getPixel_assign_frame examplePixelType
    (TorchImage.Allocate examplePixelType exampleImage (fun _ => 7)) [1, 0] [0, 1]
    examplePixel (by decide) (by decide) (by decide)
  obtain ⟨self', hself'⟩ := h.1 (by decide)
  exact ⟨by decide, by decide, by decide, self', hself', h.2 self' hself'⟩

/-- C4: the `SetPixel`/`GetPixel` round trip.  For every allocated image, every index
inside the buffered region and every pixel value, `SetPixel( index, value )` completes and
`GetPixel( index )` then reads the value. -/
theorem C4_setPixel_getPixel {α : Type} (ty : PixelType) (self : TorchImage α)
    (index : List Int) (value : PixelValue α ty) (halloc : TorchImage.IsAllocated ty self)
    (hin : TorchImage.IsInside self.m_BufferedRegionSize index) :
    ∃ self', TorchImage.SetPixel ty self index value = some self' ∧
      TorchImage.GetPixelValue ty self' index = some value := by
  have hadm := admits_of_isAllocated ty self index halloc hin
  obtain ⟨h', hh'⟩ := TorchPixelHelper.assign_isSome ty self.m_Tensor index.reverse value hadm
  refine ⟨{ self with m_Tensor := h'.m_Tensor }, ?_, ?_⟩
  · simp only [TorchImage.SetPixel, hh']
  · rw [getPixelValue_eq]
    exact TorchPixelHelper.assign_convert ty self.m_Tensor index.reverse value h' hadm hh'

theorem C4_setPixel_getPixel_witness :
    TorchImage.IsAllocated examplePixelType
      (TorchImage.Allocate examplePixelType exampleImage (fun _ => 7)) ∧
    TorchImage.IsInside
      (TorchImage.Allocate examplePixelType exampleImage (fun _ => 7)).m_BufferedRegionSize
      [1, 2] ∧
    ∃ self', TorchImage.SetPixel examplePixelType
        (TorchImage.Allocate examplePixelType exampleImage (fun _ => 7)) [1, 2] examplePixel =
          some self' ∧
      TorchImage.GetPixelValue examplePixelType self' [1, 2] = some examplePixel :=
  ⟨by decide, by decide,
    C4_setPixel_getPixel examplePixelType
      (TorchImage.Allocate examplePixelType exampleImage (fun _ => 7)) [1, 2] examplePixel
      (by decide) (by decide)⟩

/-- C5: `SetPixel` has no side effect on other pixels.  For every allocated image and
distinct indices `a` and `b` inside the buffered region, `SetPixel( b, value )` completes
and `GetPixel( a )` reads afterwards what it read before. -/
theorem C5_setPixel_frame {α : Type} (ty : PixelType) (self : TorchImage α)
    (a b : List Int) (value : PixelValue α ty) (halloc : TorchImage.IsAllocated ty self)
    (hne : a ≠ b) (ha : TorchImage.IsInside self.m_BufferedRegionSize a)
    (hb : TorchImage.IsInside self.m_BufferedRegionSize b) :
    ∃ self', TorchImage.SetPixel ty self b value = some self' ∧
      TorchImage.GetPixelValue ty self' a = TorchImage.GetPixelValue ty self a := by
  obtain ⟨h', hh'⟩ := TorchPixelHelper.assign_isSome ty self.m_Tensor b.reverse value
    (admits_of_isAllocated ty self b halloc hb)
  refine ⟨{ self with m_Tensor := h'.m_Tensor }, ?_, ?_⟩
  · simp only [TorchImage.SetPixel, hh']
  · rw [getPixelValue_eq, getPixelValue_eq]
    exact TorchPixelHelper.assign_convert_other ty self.m_Tensor b.reverse a.reverse value
      h' ((isInside_length hb).trans (isInside_length ha).symm)
      (isInside_reverse_nonneg hb) (isInside_reverse_nonneg ha) (reverse_ne (Ne.symm hne)) hh'

theorem C5_setPixel_frame_witness :
    TorchImage.IsAllocated examplePixelType
      (TorchImage.Allocate examplePixelType exampleImage (fun _ => 7)) ∧
    ([1, 0] : List Int) ≠ [0, 1] ∧
    TorchImage.IsInside
      (TorchImage.Allocate examplePixelType exampleImage (fun _ => 7)).m_BufferedRegionSize
      [1, 0] ∧
    TorchImage.IsInside
      (TorchImage.Allocate examplePixelType exampleImage (fun _ => 7)).m_BufferedRegionSize
      [0, 1] ∧
    ∃ self', TorchImage.SetPixel examplePixelType
        (TorchImage.Allocate examplePixelType exampleImage (fun _ => 7)) [0, 1] examplePixel =
          some self' ∧
      TorchImage.GetPixelValue examplePixelType self' [1, 0] =
        TorchImage.GetPixelValue examplePixelType
          (TorchImage.Allocate examplePixelType exampleImage (fun _ => 7)) [1, 0] :=
  ⟨by decide, by decide, by decide, by decide,
    C5_setPixel_frame examplePixelType
      (TorchImage.Allocate examplePixelType exampleImage (fun _ => 7)) [1, 0] [0, 1]
      examplePixel (by decide) (by decide) (by decide) (by decide)⟩

/-! ## Filling the buffer -/

theorem resolve_append_initial : ∀ (sizes : List Nat) (a b : List Int) (q : List Nat),
    resolve sizes (a ++ b) = some q → ∃ qa, resolve sizes a = some qa ∧ qa <+: q
  | sizes, [], b, q, _ => ⟨[], by cases sizes <;> simp [resolve], List.nil_prefix⟩
  | [], _ :: _, b, q, h => by simp [resolve] at h
  | size :: sizes, i :: a, b, q, h => by
    simp only [List.cons_append, resolve] at h
    split at h
    · rename_i hc
      split at h
      · exact absurd h (by simp)
      · rename_i q' hq'
        obtain ⟨qa, hqa, hpre⟩ := resolve_append_initial sizes a b q' hq'
        simp only [Option.some.injEq] at h
        subst h
        refine ⟨(if i < 0 then i + (size : Int) else i).toNat :: qa, ?_, ?_⟩
        · simp only [resolve, if_pos hc, hqa]
        · exact (List.prefix_cons_inj _).2 hpre
    · exact absurd h (by simp)

theorem fillParts_spec {α : Type} (ty : PixelType) (value : PixelValue α ty)
    (part : Tensor α → List Int → Option (Tensor α)) (rest : List Nat) (n : Nat)
    (hpart : ∀ (t : Tensor α) (index : List Int), IndexInRange t.sizes index →
      t.sizes.drop index.length = rest ++ ty.dimensions →
      ∃ t', part t index = some t' ∧ t'.sizes = t.sizes ∧
        (∀ p, (∀ q, resolve t.sizes index = some q → ¬ q <+: p) → t'.data p = t.data p) ∧
        ∀ K, List.Forall₂ (fun (i : Int) (size : Nat) => 0 ≤ i ∧ i < (size : Int)) K rest →
          (TorchPixelHelper.convert ty ⟨t', index ++ K⟩).map (fun r => r.1) = some value)
    (index : List Int) :
    ∀ (count i : Nat) (t : Tensor α), i + count ≤ n → IndexInRange t.sizes index →
      t.sizes.drop index.length = n :: (rest ++ ty.dimensions) →
      ∃ t', TorchImage.fillParts part count i t index = some t' ∧ t'.sizes = t.sizes ∧
        (∀ p, (∀ (j : Nat) q, i ≤ j → resolve t.sizes (index ++ [(j : Int)]) = some q →
          ¬ q <+: p) → t'.data p = t.data p) ∧
        ∀ (j : Nat) K, i ≤ j → j < i + count →
          List.Forall₂ (fun (i : Int) (size : Nat) => 0 ≤ i ∧ i < (size : Int)) K rest →
          (TorchPixelHelper.convert ty ⟨t', index ++ [(j : Int)] ++ K⟩).map (fun r => r.1) =
            some value
  | 0, i, t, _, _, _ =>
    ⟨t, rfl, rfl, fun _ _ => rfl, fun j K h1 h2 _ => absurd h2 (by omega)⟩
  | count + 1, i, t, hn, hr, hd => by
    have hr1 : IndexInRange t.sizes (index ++ [(i : Int)]) :=
      indexInRange_append t.sizes index n _ i hr hd (by omega)
    have hd1 : t.sizes.drop (index ++ [(i : Int)]).length = rest ++ ty.dimensions := by
      rw [List.length_append, List.length_singleton, ← List.drop_drop, hd]
      rfl
    obtain ⟨t1, ht1, hs1, hf1, hread1⟩ := hpart t _ hr1 hd1
    obtain ⟨t', ht', hs', hf', hread'⟩ := fillParts_spec ty value part rest n hpart index
      count (i + 1) t1 (by omega) (hs1 ▸ hr) (hs1 ▸ hd)
    refine ⟨t', ?_, hs'.trans hs1, fun p hp => ?_, fun j K h1 h2 hK => ?_⟩
    · simp only [TorchImage.fillParts, ht1]
      exact ht'
    · rw [hf' p (fun j q hj hq => hp j q (by omega) (hs1 ▸ hq))]
      exact hf1 p (fun q hq => hp i q (le_refl i) hq)
    · by_cases hji : j = i
      · subst hji
        rw [← hread1 K hK]
        refine TorchPixelHelper.convert_congr ty t' t1 _ hs' (fun q hq p hpre => hf' p ?_)
        intro j' q' hj' hq' hpre'
        rw [hs'] at hq
        obtain ⟨qa, hqa, hqpre⟩ := resolve_append_initial _ _ _ _ hq
        obtain ⟨q0, hq0, rfl⟩ := resolve_append_nat _ index j qa hqa
        obtain ⟨q0', hq0', rfl⟩ := resolve_append_nat _ index j' q' hq'
        rw [hq0] at hq0'
        simp only [Option.some.injEq] at hq0'
        subst hq0'
        have := TorchPixelHelper.initial_eq_of_length (hqpre.trans hpre) hpre' (by simp)
        simp only [List.append_cancel_left_eq, List.cons.injEq, and_true] at this
        omega
      · exact hread' j K (by omega) (by omega) hK

theorem fillBufferPart_spec {α : Type} (ty : PixelType) (value : PixelValue α ty)
    (BufferSize : List Nat) :
    ∀ (d : Nat) (t : Tensor α) (index : List Int), d ≤ BufferSize.length →
      IndexInRange t.sizes index →
      t.sizes.drop index.length = (BufferSize.take d).reverse ++ ty.dimensions →
      ∃ t', TorchImage.FillBufferPart ty value BufferSize d t index = some t' ∧
        t'.sizes = t.sizes ∧
        (∀ p, (∀ q, resolve t.sizes index = some q → ¬ q <+: p) → t'.data p = t.data p) ∧
        ∀ K, List.Forall₂ (fun (i : Int) (size : Nat) => 0 ≤ i ∧ i < (size : Int)) K
            (BufferSize.take d).reverse →
          (TorchPixelHelper.convert ty ⟨t', index ++ K⟩).map (fun r => r.1) = some value
  | 0, t, index, _, hr, hd => by
    simp only [List.take_zero, List.reverse_nil, List.nil_append] at hd
    have hadm := admits_of_drop ty t.sizes index hr hd
    obtain ⟨h', hh'⟩ := TorchPixelHelper.assign_isSome ty t index value hadm
    obtain ⟨_, hs, hf⟩ := TorchPixelHelper.assign_spec ty t index value h' hh'
    refine ⟨h'.m_Tensor, ?_, hs, hf, fun K hK => ?_⟩
    · simp only [TorchImage.FillBufferPart, hh']
    · simp only [List.take_zero, List.reverse_nil, List.forall₂_nil_right_iff] at hK
      subst hK
      rw [List.append_nil]
      exact TorchPixelHelper.assign_convert ty t index value h' hadm hh'
  | d + 1, t, index, hle, hr, hd => by
    have hlt : d < BufferSize.length := by omega
    have htake : (BufferSize.take (d + 1)).reverse =
        BufferSize[d] :: (BufferSize.take d).reverse := by
      rw [List.take_succ, List.getElem?_eq_getElem hlt]
      simp
    have hget : BufferSize.getD d 0 = BufferSize[d] := by
      rw [List.getD_eq_getElem?_getD, List.getElem?_eq_getElem hlt]
      rfl
    rw [htake, List.cons_append] at hd
    obtain ⟨t', ht', hs', hf', hread'⟩ := fillParts_spec ty value
      (TorchImage.FillBufferPart ty value BufferSize d) (BufferSize.take d).reverse
      BufferSize[d]
      (fun t index hr hd => fillBufferPart_spec ty value BufferSize d t index (by omega) hr hd)
      index BufferSize[d] 0 t (by omega) hr hd
    refine ⟨t', ?_, hs', fun p hp => hf' p (fun j q _ hq => ?_), fun K hK => ?_⟩
    · simp only [TorchImage.FillBufferPart, hget]
      exact ht'
    · obtain ⟨q0, hq0, rfl⟩ := resolve_append_nat t.sizes index j q hq
      exact fun hpre => hp q0 hq0 ((List.prefix_append q0 [j]).trans hpre)
    · rw [htake] at hK
      obtain ⟨k, K', hk, hK', rfl⟩ := List.forall₂_cons_right_iff.1 hK
      have hkn : ((k.toNat : Nat) : Int) = k := Int.toNat_of_nonneg hk.1
      have := hread' k.toNat K' (Nat.zero_le _) (by omega) hK'
      rw [hkn, List.append_assoc, List.singleton_append] at this
      exact this

/-- C3: the postcondition of `FillBuffer`.  For every allocated image, of a scalar or a
non-scalar pixel type, and every pixel value, `FillBuffer( value )` completes and
`GetPixel( index )` then reads the value at every index inside the buffered region. -/
theorem C3_fillBuffer_getPixel {α : Type} (ty : PixelType) (self : TorchImage α)
    (value : PixelValue α ty) (halloc : TorchImage.IsAllocated ty self) :
    ∃ self', TorchImage.FillBuffer ty self value = some self' ∧
      ∀ index, TorchImage.IsInside self.m_BufferedRegionSize index →
        TorchImage.GetPixelValue ty self' index = some value := by
  cases ty with
  | arithmetic =>
    refine ⟨{ self with m_Tensor := self.m_Tensor.fill_ value }, rfl, fun index hin => ?_⟩
    have hadm := admits_of_isAllocated .arithmetic self index halloc hin
    obtain ⟨q, hq⟩ := Option.isSome_iff_exists.1 ((resolve_isSome_iff _ _).2 hadm.1)
    have hl := resolve_length _ _ _ hq
    have hn : (self.m_Tensor.sizes.drop q.length).prod = 1 := by rw [hl]; exact hadm.2
    rw [getPixelValue_eq, TorchPixelHelper.convert_arithmetic_eq]
    simp only [Tensor.fill_, hq, if_pos hn, Option.map_some']
  | vector n ty =>
    have hsz := halloc.2
    rw [computeTorchSize_eq] at hsz
    obtain ⟨t', ht', _, _, hread⟩ := fillBufferPart_spec (.vector n ty) value
      self.m_BufferedRegionSize self.ImageDimension self.m_Tensor [] (le_refl _)
      (by cases self.m_Tensor.sizes <;> trivial)
      (by
        unfold TorchImage.ImageDimension
        rw [List.take_length, List.length_nil, List.drop_zero]
        exact hsz)
    refine ⟨{ self with m_Tensor := t' }, ?_, fun index hin => ?_⟩
    · simp only [TorchImage.FillBuffer, ht']
    · rw [getPixelValue_eq]
      have hK := List.rel_reverse ((isInside_iff_forall₂ _ _).1 hin)
      have := hread index.reverse (by
        unfold TorchImage.ImageDimension
        rw [List.take_length]
        exact hK)
      rw [List.nil_append] at this
      exact this

theorem C3_fillBuffer_getPixel_witness :
    TorchImage.IsAllocated examplePixelType
      (TorchImage.Allocate examplePixelType exampleImage (fun _ => 7)) ∧
    ∃ self', TorchImage.FillBuffer examplePixelType
        (TorchImage.Allocate examplePixelType exampleImage (fun _ => 7)) examplePixel =
          some self' ∧
      TorchImage.GetPixelValue examplePixelType self' [1, 2] = some examplePixel := by
  obtain ⟨self', hfill, hread⟩ := C3_fillBuffer_getPixel examplePixelType
    (TorchImage.Allocate examplePixelType exampleImage (fun _ => 7)) examplePixel (by decide)
  exact ⟨by decide, self', hfill, hread [1, 2] (by decide)⟩

/-! ## The scalars of a pixel in the tensor -/

theorem scalarAt_eq_convert {α : Type} (t : Tensor α) (position : List Int) :
    t.scalarAt position =
      (TorchPixelHelper.convert .arithmetic ⟨t, position⟩).map (fun r => r.1) := by
  simp only [Tensor.scalarAt, TorchPixelHelper.convert, TorchPixelHelper.walk]
  cases position.foldlM TensorView.select (⟨t, []⟩ : TensorView α) with
  | none => rfl
  | some view =>
    simp only
    cases hi : view.item <;> simp

theorem convertComponents_get {α β : Type}
    (f : TorchPixelHelper α → Option (β × TorchPixelHelper α))
    (hf : ∀ h r, f h = some r → r.2 = h) (t : Tensor α) (index : List Int) :
    ∀ (count i : Nat) (xs : List β),
      (TorchPixelHelper.convertComponents f count i ⟨t, index⟩).map (fun r => r.1.val) =
        some xs →
      ∀ (k : Nat) (x : β), xs[k]? = some x →
        (f ⟨t, index ++ [((i + k : Nat) : Int)]⟩).map (fun r => r.1) = some x
  | 0, i, xs, h, k, x, hk => by
    simp only [TorchPixelHelper.convertComponents, Option.map_some', Option.some.injEq] at h
    subst h
    simp at hk
  | count + 1, i, xs, h, k, x, hk => by
    rw [TorchPixelHelper.convertComponents_succ f hf] at h
    cases e1 : (f ⟨t, index ++ [(i : Int)]⟩).map (fun r => r.1) with
    | none => simp [e1] at h
    | some x0 =>
      cases e2 : (TorchPixelHelper.convertComponents f count (i + 1) ⟨t, index⟩).map
          (fun r => r.1.val) with
      | none => simp [e1, e2] at h
      | some xs' =>
        simp only [e1, e2, Option.some.injEq] at h
        subst h
        cases k with
        | zero =>
          simp only [List.getElem?_cons_zero, Option.some.injEq] at hk
          subst hk
          simpa using e1
        | succ k =>
          simp only [List.getElem?_cons_succ] at hk
          have := convertComponents_get f hf t index count (i + 1) xs' e2 k x hk
          have e : i + 1 + k = i + (k + 1) := by omega
          rw [e] at this
          exact this

/-- Every scalar of the pixel a conversion returns is the scalar of the tensor at the
torch index followed by the component path. -/
theorem convert_component {α : Type} : ∀ (ty : PixelType) (t : Tensor α) (index : List Int)
    (r : PixelValue α ty × TorchPixelHelper α),
    TorchPixelHelper.convert ty ⟨t, index⟩ = some r →
    ∀ path, IsComponentPath ty path →
      ∃ a, PixelValue.component ty r.1 path = some a ∧
        t.scalarAt (index ++ path.map Int.ofNat) = some a
  | .arithmetic, t, index, r, h, [], _ => by
    refine ⟨r.1, rfl, ?_⟩
    rw [List.map_nil, List.append_nil, scalarAt_eq_convert, h]
    rfl
  | .arithmetic, _, _, _, _, _ :: _, hp => hp.elim
  | .vector _ _, _, _, _, _, [], hp => hp.elim
  | .vector n ty, t, index, r, h, j :: path, hp => by
    simp only [TorchPixelHelper.convert] at h
    have hj : j < r.1.val.length := by rw [r.1.property]; exact hp.1
    have hget : r.1.val[j]? = some r.1.val[j] := List.getElem?_eq_getElem hj
    have hx := convertComponents_get (TorchPixelHelper.convert ty)
      (TorchPixelHelper.convert_self ty) t index n 0 r.1.val (by rw [h]; rfl) j _ hget
    rw [Nat.zero_add] at hx
    obtain ⟨r', hr', hr1⟩ := Option.map_eq_some'.1 hx
    obtain ⟨a, ha, hs⟩ := convert_component ty t _ r' hr' path hp.2
    refine ⟨a, ?_, ?_⟩
    · simp only [PixelValue.component, hget]
      rw [← hr1]
      exact ha
    · rw [List.map_cons, ← List.singleton_append, ← List.append_assoc]
      exact hs

theorem convertComponents_isSome {α β : Type}
    (f : TorchPixelHelper α → Option (β × TorchPixelHelper α))
    (A : List Nat → List Int → Prop)
    (hself : ∀ h r, f h = some r → r.2 = h)
    (hf : ∀ (t : Tensor α) (index : List Int), A t.sizes index → ∃ r, f ⟨t, index⟩ = some r)
    (t : Tensor α) (index : List Int) :
    ∀ (count i : Nat), (∀ j, i ≤ j → j < i + count → A t.sizes (index ++ [(j : Int)])) →
      ∃ r, TorchPixelHelper.convertComponents f count i ⟨t, index⟩ = some r
  | 0, _, _ => ⟨_, rfl⟩
  | count + 1, i, hA => by
    obtain ⟨r1, hr1⟩ := hf t (index ++ [(i : Int)]) (hA i (le_refl i) (by omega))
    obtain ⟨x, next⟩ := r1
    have hn := hself _ _ hr1
    simp only at hn
    subst hn
    obtain ⟨r2, hr2⟩ := convertComponents_isSome f A hself hf t index count (i + 1)
      (fun j h1 h2 => hA j (by omega) (by omega))
    obtain ⟨xs, self'⟩ := r2
    refine ⟨(⟨x :: xs.val, by rw [List.length_cons, xs.property]⟩, self'), ?_⟩
    simp only [TorchPixelHelper.convertComponents, List.dropLast_concat, hr1, hr2]

/-- The conversion succeeds on a tensor whose shape admits the torch index. -/
theorem convert_isSome {α : Type} : ∀ (ty : PixelType) (t : Tensor α) (index : List Int),
    Admits ty t.sizes index → ∃ r, TorchPixelHelper.convert ty ⟨t, index⟩ = some r
  | .arithmetic, t, index, hA => by
    rw [TorchPixelHelper.convert_arithmetic_eq]
    obtain ⟨q, hq⟩ := Option.isSome_iff_exists.1 ((resolve_isSome_iff t.sizes index).2 hA.1)
    have hl := resolve_length _ _ _ hq
    have hn : (t.sizes.drop q.length).prod = 1 := by rw [hl]; exact hA.2
    exact ⟨(t.data (q ++ List.replicate (t.sizes.drop q.length).length 0), ⟨t, index⟩),
      by simp only [hq, if_pos hn]⟩
  | .vector n ty, t, index, hA => by
    simp only [TorchPixelHelper.convert]
    exact convertComponents_isSome (TorchPixelHelper.convert ty) (Admits ty)
      (TorchPixelHelper.convert_self ty) (convert_isSome ty) t index n 0
      (fun j _ h2 => hA j (by omega))

/-! ## Access through `operator[]`, grafting and the number of components -/

/-- C11: `operator[]` is `GetPixel`.  For every image and every index both overloads of
`image[index]` return the pixel helper `GetPixel( index )` returns, with the same tensor
and the same torch index, so converting it reads the same pixel and assigning through it
has the same effect. -/
theorem C11_operatorBrackets_is_getPixel {α : Type} (self : TorchImage α) (index : List Int) :
    self.operatorBrackets index = self.GetPixel index ∧
    self.operatorBracketsConst index = self.GetPixel index ∧
    (self.operatorBrackets index).m_Tensor = (self.GetPixel index).m_Tensor ∧
    (self.operatorBrackets index).m_TorchIndex = (self.GetPixel index).m_TorchIndex ∧
    (self.operatorBracketsConst index).m_Tensor = (self.GetPixel index).m_Tensor ∧
    (self.operatorBracketsConst index).m_TorchIndex = (self.GetPixel index).m_TorchIndex ∧
    (∀ ty : PixelType,
      TorchPixelHelper.convert ty (self.operatorBrackets index) =
        TorchPixelHelper.convert ty (self.GetPixel index) ∧
      TorchPixelHelper.convert ty (self.operatorBracketsConst index) =
        TorchPixelHelper.convert ty (self.GetPixel index)) ∧
    (∀ (ty : PixelType) (value : PixelValue α ty),
      TorchPixelHelper.assign ty (self.operatorBrackets index) value =
        TorchPixelHelper.assign ty (self.GetPixel index) value) :=
  ⟨rfl, rfl, rfl, rfl, rfl, rfl, fun _ => ⟨rfl, rfl⟩, fun _ _ => rfl⟩

/-- C12: `Graft` copies over the pixel container.  After `image2->Graft( image )` the
tensor and the buffered region of `image2` are those of `image`, so `GetPixel` on `image2`
reads at every index what `GetPixel` on `image` reads, and when `image` is allocated that
is a pixel value at every index inside the buffered region.  The image grafted from is
not changed by the call: it is the same `data` on both sides. -/
theorem C12_graft_same_pixels {α : Type} (self data : TorchImage α) :
    (TorchImage.Graft self data).m_Tensor = data.m_Tensor ∧
    (TorchImage.Graft self data).m_BufferedRegionSize = data.m_BufferedRegionSize ∧
    (∀ (ty : PixelType) (index : List Int),
      TorchImage.GetPixelValue ty (TorchImage.Graft self data) index =
        TorchImage.GetPixelValue ty data index) ∧
    (∀ (ty : PixelType) (index : List Int), TorchImage.IsAllocated ty data →
      TorchImage.IsInside (TorchImage.Graft self data).m_BufferedRegionSize index →
      ∃ value, TorchImage.GetPixelValue ty (TorchImage.Graft self data) index = some value ∧
        TorchImage.GetPixelValue ty data index = some value) := by
  refine ⟨rfl, rfl, fun _ _ => rfl, fun ty index halloc hin => ?_⟩
  obtain ⟨r, hr⟩ := convert_isSome ty data.m_Tensor index.reverse
    (admits_of_isAllocated ty data index halloc hin)
  have h : TorchImage.GetPixelValue ty data index = some r.1 := by
    rw [getPixelValue_eq, hr]
    rfl
  exact ⟨r.1, h, h⟩

theorem sizeOf_eq_prod : ∀ (ty : PixelType),
    TorchPixelHelper.SizeOf ty = ty.dimensions.prod
  | .arithmetic => rfl
  | .vector n ty => by
    simp [TorchPixelHelper.SizeOf, TorchPixelHelper.NumberOfComponents,
      PixelType.dimensions, sizeOf_eq_prod ty]

/-- C16: `GetNumberOfComponentsPerPixel` counts only the outermost level.  It is 1 for an
arithmetic pixel type and the `Dimension` of the outermost vector for a vector pixel type;
`SizeOf` is the number of scalars of a pixel, the product of the `Dimension` of all levels;
for the vector of three vectors of two RGB pixels the former is 3 and the latter is 18, so
the two differ for some pixel type. -/
theorem C16_numberOfComponents_outermost :
    TorchImage.GetNumberOfComponentsPerPixel .arithmetic = 1 ∧
    (∀ n ty, TorchImage.GetNumberOfComponentsPerPixel (.vector n ty) = n) ∧
    (∀ ty, TorchPixelHelper.SizeOf ty = ty.dimensions.prod) ∧
    TorchImage.GetNumberOfComponentsPerPixel exampleNestedPixelType = 3 ∧
    TorchPixelHelper.SizeOf exampleNestedPixelType = 18 ∧
    ∃ ty, TorchImage.GetNumberOfComponentsPerPixel ty ≠ TorchPixelHelper.SizeOf ty :=
  ⟨rfl, fun _ _ => rfl, sizeOf_eq_prod, rfl, by decide, exampleNestedPixelType, by decide⟩

/-! ## The components of a pixel on the extra tensor dimensions -/

/-- C14: vector components are written onto the extra tensor dimensions.  For every
pixel type (of any nesting depth, in particular depth at least 1), every tensor whose
shape admits the helper's torch index and every pixel value, the assignment succeeds and
afterwards the scalar of the tensor at the torch index followed by a component path
`i_1, ..., i_k` is `value[i_1]...[i_k]`, for every component path of the pixel type. -/
theorem C14_assign_writes_components {α : Type} (ty : PixelType) (t : Tensor α)
    (index : List Int) (value : PixelValue α ty) (hadmits : Admits ty t.sizes index) :
    ∃ h', TorchPixelHelper.assign ty ⟨t, index⟩ value = some h' ∧
      ∀ path, IsComponentPath ty path →
        ∃ a, PixelValue.component ty value path = some a ∧
          h'.m_Tensor.scalarAt (index ++ path.map Int.ofNat) = some a := by
  obtain ⟨h', hh'⟩ := TorchPixelHelper.assign_isSome ty t index value hadmits
  refine ⟨h', hh', fun path hpath => ?_⟩
  have hread := TorchPixelHelper.assign_convert ty t index value h' hadmits hh'
  obtain ⟨r, hr, hr1⟩ := Option.map_eq_some'.1 hread
  obtain ⟨a, ha, hs⟩ := convert_component ty h'.m_Tensor index r hr path hpath
  exact ⟨a, hr1 ▸ ha, hs⟩

theorem C14_assign_writes_components_witness :
    Admits examplePixelType exampleTensor.sizes [1] ∧
    IsComponentPath examplePixelType [2, 1] ∧
    ∃ h', TorchPixelHelper.assign examplePixelType ⟨exampleTensor, [1]⟩ examplePixel =
        some h' ∧
      h'.m_Tensor.scalarAt [1, 2, 1] = some 6 := by
  obtain ⟨h', hh', hpaths⟩ := C14_assign_writes_components examplePixelType exampleTensor
    [1] examplePixel (by decide)
  obtain ⟨a, ha, hs⟩ := hpaths [2, 1] (by decide)
  have h6 : PixelValue.component examplePixelType examplePixel [2, 1] = some 6 := rfl
  rw [h6] at ha
  rw [← Option.some.inj ha] at hs
  exact ⟨by decide, by decide, h', hh', hs⟩

/-- C15: vector components are read from the extra tensor dimensions.  For every pixel
type (of any nesting depth, in particular depth at least 1) and every tensor whose shape
admits the helper's torch index, the conversion succeeds, the helper afterwards has the
tensor it had, and every scalar `p[i_1]...[i_k]` of the pixel `p` returned is the scalar
of the tensor at the torch index followed by the component path. -/
theorem C15_convert_reads_components {α : Type} (ty : PixelType) (t : Tensor α)
    (index : List Int) (hadmits : Admits ty t.sizes index) :
    ∃ r, TorchPixelHelper.convert ty ⟨t, index⟩ = some r ∧
      r.2.m_Tensor = t ∧
      ∀ path, IsComponentPath ty path →
        ∃ a, PixelValue.component ty r.1 path = some a ∧
          t.scalarAt (index ++ path.map Int.ofNat) = some a := by
  obtain ⟨r, hr⟩ := convert_isSome ty t index hadmits
  refine ⟨r, hr, ?_, convert_component ty t index r hr⟩
  rw [TorchPixelHelper.convert_self ty _ r hr]

theorem C15_convert_reads_components_witness :
    Admits examplePixelType exampleTensor.sizes [1] ∧
    IsComponentPath examplePixelType [2, 1] ∧
    ∃ r, TorchPixelHelper.convert examplePixelType ⟨exampleTensor, [1]⟩ = some r ∧
      r.2.m_Tensor = exampleTensor ∧
      PixelValue.component examplePixelType r.1 [2, 1] = some 7 := by
  obtain ⟨r, hr, ht, hpaths⟩ := C15_convert_reads_components examplePixelType exampleTensor
    [1] (by decide)
  obtain ⟨a, ha, hs⟩ := hpaths [2, 1] (by decide)
  have h7 : exampleTensor.scalarAt [1, 2, 1] = some 7 := by decide
  have hs' : exampleTensor.scalarAt [1, 2, 1] = some a := hs
  rw [h7] at hs'
  rw [← Option.some.inj hs'] at ha
  exact ⟨by decide, by decide, r, hr, ht, ha⟩

/-! ## The torch index and the rest of the tensor -/

/-- C17: the helper's torch index is preserved.  For every pixel type of any nesting
depth, after an assignment that returns and after a conversion that returns,
`m_TorchIndex` is the list it was before the call; both calls return on a tensor whose
shape admits the torch index. -/
theorem C17_torchIndex_preserved {α : Type} (ty : PixelType) (self : TorchPixelHelper α)
    (value : PixelValue α ty) :
    (∀ h', TorchPixelHelper.assign ty self value = some h' →
      h'.m_TorchIndex = self.m_TorchIndex) ∧
    (∀ r, TorchPixelHelper.convert ty self = some r →
      r.2.m_TorchIndex = self.m_TorchIndex) ∧
    (Admits ty self.m_Tensor.sizes self.m_TorchIndex →
      (∃ h', TorchPixelHelper.assign ty self value = some h') ∧
      ∃ r, TorchPixelHelper.convert ty self = some r) := by
  obtain ⟨t, index⟩ := self
  refine ⟨fun h' h => (TorchPixelHelper.assign_spec ty t index value h' h).1,
    fun r h => ?_, fun hadm => ⟨TorchPixelHelper.assign_isSome ty t index value hadm,
      convert_isSome ty t index hadm⟩⟩
  rw [TorchPixelHelper.convert_self ty _ r h]

/-- C18: the write frame of the helper.  A position extends the torch index when it
starts with the coordinates the torch index selects (a negative entry counts from the end
of its dimension; without negative entries the coordinates are the entries).  For every
pixel type, an assignment that returns keeps the shape and the scalar at every position
that does not extend the torch index; the assignment returns on a tensor whose shape
admits the torch index. -/
theorem C18_assign_frame {α : Type} (ty : PixelType) (t : Tensor α) (index : List Int)
    (value : PixelValue α ty) :
    (∀ h', TorchPixelHelper.assign ty ⟨t, index⟩ value = some h' →
      h'.m_Tensor.sizes = t.sizes ∧
      ∀ p : List Nat, (∀ q, resolve t.sizes index = some q → ¬ q <+: p) →
        h'.m_Tensor.data p = t.data p) ∧
    (∀ h', TorchPixelHelper.assign ty ⟨t, index⟩ value = some h' →
      (∀ i ∈ index, 0 ≤ i) →
      ∀ p : List Nat, ¬ index <+: p.map Int.ofNat → h'.m_Tensor.data p = t.data p) ∧
    (Admits ty t.sizes index → ∃ h', TorchPixelHelper.assign ty ⟨t, index⟩ value = some h') := by
  refine ⟨fun h' h => (TorchPixelHelper.assign_spec ty t index value h' h).2,
    fun h' h hnn p hp => ?_, TorchPixelHelper.assign_isSome ty t index value⟩
  refine (TorchPixelHelper.assign_spec ty t index value h' h).2.2 p (fun q hq hpre => hp ?_)
  rw [← resolve_nonneg t.sizes index q hq hnn]
  exact hpre.map _
end itk
